import Mathlib

/-!
Verification of the PML (perfectly matched layer) boundary-condition subsystem
in `Source/BoundaryConditions/PML.cpp`.

The development shallowly embeds the PML code over exact rational arithmetic
(`ℚ` stands for the C++ `amrex::Real`; the exponential called by the decay
factor computation is kept as an abstract function parameter `EXP`).  Integer
index vectors are functions `Fin 3 → ℤ` (`AMREX_SPACEDIM = 3`), and AMReX
`Box`/`BoxArray` geometry primitives (grow, intersection, complementIn,
removeOverlap, boxDiff), which the spec treats as an external collaborator
contract, are implemented here with their standard documented semantics.
-/

namespace WarpXPML

/-- Index vector in 3 dimensions (`amrex::IntVect` with `AMREX_SPACEDIM = 3`). -/
def IntVect : Type := Fin 3 → ℤ

instance : DecidableEq IntVect := fun a b => Fintype.decidablePiFintype a b

instance : Add IntVect := ⟨fun a b k => a k + b k⟩

instance : Mul IntVect := ⟨fun a b k => a k * b k⟩

instance : Zero IntVect := ⟨fun _ => 0⟩

/-- Build an index vector from three coordinates. -/
def iv (a b c : ℤ) : IntVect := ![a, b, c]

/-- Maximum component of an index vector (`IntVect::max()`). -/
def IntVect.maxComp (v : IntVect) : ℤ := max (v 0) (max (v 1) (v 2))

/-- An axis-aligned integer index-space rectangle (`amrex::Box`, cell-centered). -/
structure Box where
  lo : IntVect
  hi : IntVect

instance : DecidableEq Box := fun a b =>
  decidable_of_iff (a.lo = b.lo ∧ a.hi = b.hi) (by cases a; cases b; simp)

instance : Inhabited Box := ⟨⟨fun _ => 0, fun _ => -1⟩⟩

namespace Box

/-- Cell membership: the cell `x` lies in the box. -/
def mem (b : Box) (x : IntVect) : Prop := ∀ k : Fin 3, b.lo k ≤ x k ∧ x k ≤ b.hi k

instance : Membership IntVect Box := ⟨fun b x => Box.mem b x⟩

instance (b : Box) (x : IntVect) : Decidable (x ∈ b) :=
  inferInstanceAs (Decidable (∀ k : Fin 3, b.lo k ≤ x k ∧ x k ≤ b.hi k))

theorem mem_def {b : Box} {x : IntVect} :
    x ∈ b ↔ ∀ k : Fin 3, b.lo k ≤ x k ∧ x k ≤ b.hi k := Iff.rfl

/-- `Box::ok()`: the box is non-empty. -/
def ok (b : Box) : Prop := ∀ k : Fin 3, b.lo k ≤ b.hi k

instance (b : Box) : Decidable b.ok :=
  inferInstanceAs (Decidable (∀ k : Fin 3, b.lo k ≤ b.hi k))

/-- Intersection of two boxes (`operator&`). -/
def inter (a b : Box) : Box :=
  ⟨fun k => max (a.lo k) (b.lo k), fun k => min (a.hi k) (b.hi k)⟩

theorem mem_inter {a b : Box} {x : IntVect} : x ∈ a.inter b ↔ x ∈ a ∧ x ∈ b := by
  constructor
  · intro h
    constructor <;> intro k <;>
      have hk := h k <;>
      simp only [inter, le_max_iff, max_le_iff, min_le_iff, le_min_iff] at hk <;>
      exact ⟨by omega, by omega⟩
  · rintro ⟨ha, hb⟩ k
    have hak := ha k
    have hbk := hb k
    simp only [inter, max_le_iff, le_min_iff]
    exact ⟨⟨hak.1, hbk.1⟩, hak.2, hbk.2⟩

/-- Grow a box by `n` cells in every direction (`Box::grow(int)`). -/
def grow (b : Box) (n : ℤ) : Box := ⟨fun k => b.lo k - n, fun k => b.hi k + n⟩

/-- Grow a box by `n` cells along one axis only. -/
def growDim (b : Box) (d : Fin 3) (n : ℤ) : Box :=
  ⟨Function.update b.lo d (b.lo d - n), Function.update b.hi d (b.hi d + n)⟩

/-- Grow the low side of a box along one axis (`Box::growLo`). -/
def growLo (b : Box) (d : Fin 3) (n : ℤ) : Box :=
  ⟨Function.update b.lo d (b.lo d - n), b.hi⟩

/-- Grow the high side of a box along one axis (`Box::growHi`). -/
def growHi (b : Box) (d : Fin 3) (n : ℤ) : Box :=
  ⟨b.lo, Function.update b.hi d (b.hi d + n)⟩

/-- Shift a box by an index vector (`Box::shift`). -/
def shift (b : Box) (v : IntVect) : Box := ⟨b.lo + v, b.hi + v⟩

/-- Size of a box: number of cells along each axis (`Box::size`). -/
def size (b : Box) : IntVect := fun k => b.hi k - b.lo k + 1

/-- Length of a box along one axis (`Box::length(int)`). -/
def length (b : Box) (d : Fin 3) : ℤ := b.hi d - b.lo d + 1

/-- Grow a box by a per-axis vector of cell counts. -/
def growVec (b : Box) (ng : IntVect) : Box :=
  ⟨fun k => b.lo k - ng k, fun k => b.hi k + ng k⟩

end Box

/-! ### Damping profile arrays and the fill routines

`Sigma` is the per-axis damping-profile array type of the C++ code: a linear
array `data` addressed by physical position minus `m_lo`. -/

/-- A damping-profile array (`Sigma` in the C++ code): storage indexed from
`m_lo`, addressed in the code as `p[i - m_lo]`. -/
structure Sigma where
  m_lo : ℤ
  m_hi : ℤ
  data : ℤ → ℚ

/-- The wave propagation speed constant `PhysConst::c`. -/
def PhysConst.c : ℚ := 299792458

/-- The per-axis damping strength prefactor computed in the `SigmaBox`
constructor: `fac[idim] = 4.0*PhysConst::c/(dx[idim]*delta*delta)`. -/
def pmlFac (dx : ℚ) (delta : ℤ) : ℚ :=
  4 * PhysConst.c / (dx * ((delta * delta : ℤ) : ℚ))

/-- `FillLo`: fill the profile arrays on the low side of a grid box.  The
kernel runs over `N = ohi+1-olo+1` iterations, shifted by `olo`, so positions
`i` with `olo ≤ i ≤ ohi+1` are written; the primary arrays receive
`fac*(glo-i)^2` and its cumulative integral, the star arrays the same at
offset `glo-i-0.5`, guarded (vacuously) by `i <= ohi+1`. -/
def FillLo (idim : Fin 3) (sigma sigma_cumsum sigma_star sigma_star_cumsum : Sigma)
    (overlap grid : Box) (fac : ℚ) : Sigma × Sigma × Sigma × Sigma :=
  let glo := grid.lo idim
  let olo := overlap.lo idim
  let ohi := overlap.hi idim
  let slo := sigma.m_lo
  let sslo := sigma_star.m_lo
  ( { sigma with data := fun j =>
        if olo ≤ j + slo ∧ j + slo ≤ ohi + 1 then
          fac * (((glo - (j + slo) : ℤ) : ℚ) * ((glo - (j + slo) : ℤ) : ℚ))
        else sigma.data j }
  , { sigma_cumsum with data := fun j =>
        if olo ≤ j + slo ∧ j + slo ≤ ohi + 1 then
          fac * (((glo - (j + slo) : ℤ) : ℚ) * ((glo - (j + slo) : ℤ) : ℚ)
                  * ((glo - (j + slo) : ℤ) : ℚ)) / 3 / PhysConst.c
        else sigma_cumsum.data j }
  , { sigma_star with data := fun j =>
        if (olo ≤ j + sslo ∧ j + sslo ≤ ohi + 1) ∧ j + sslo ≤ ohi + 1 then
          fac * ((((glo - (j + sslo) : ℤ) : ℚ) - 1/2) * (((glo - (j + sslo) : ℤ) : ℚ) - 1/2))
        else sigma_star.data j }
  , { sigma_star_cumsum with data := fun j =>
        if (olo ≤ j + sslo ∧ j + sslo ≤ ohi + 1) ∧ j + sslo ≤ ohi + 1 then
          fac * ((((glo - (j + sslo) : ℤ) : ℚ) - 1/2) * (((glo - (j + sslo) : ℤ) : ℚ) - 1/2)
                  * (((glo - (j + sslo) : ℤ) : ℚ) - 1/2)) / 3 / PhysConst.c
        else sigma_star_cumsum.data j } )

/-- `FillHi`: fill the profile arrays on the high side of a grid box; the
primary offset is `i-ghi-1`, the star offset `i-ghi-0.5`. -/
def FillHi (idim : Fin 3) (sigma sigma_cumsum sigma_star sigma_star_cumsum : Sigma)
    (overlap grid : Box) (fac : ℚ) : Sigma × Sigma × Sigma × Sigma :=
  let ghi := grid.hi idim
  let olo := overlap.lo idim
  let ohi := overlap.hi idim
  let slo := sigma.m_lo
  let sslo := sigma_star.m_lo
  ( { sigma with data := fun j =>
        if olo ≤ j + slo ∧ j + slo ≤ ohi + 1 then
          fac * ((((j + slo) - ghi - 1 : ℤ) : ℚ) * (((j + slo) - ghi - 1 : ℤ) : ℚ))
        else sigma.data j }
  , { sigma_cumsum with data := fun j =>
        if olo ≤ j + slo ∧ j + slo ≤ ohi + 1 then
          fac * ((((j + slo) - ghi - 1 : ℤ) : ℚ) * (((j + slo) - ghi - 1 : ℤ) : ℚ)
                  * (((j + slo) - ghi - 1 : ℤ) : ℚ)) / 3 / PhysConst.c
        else sigma_cumsum.data j }
  , { sigma_star with data := fun j =>
        if (olo ≤ j + sslo ∧ j + sslo ≤ ohi + 1) ∧ j + sslo ≤ ohi + 1 then
          fac * (((((j + sslo) - ghi : ℤ) : ℚ) - 1/2) * ((((j + sslo) - ghi : ℤ) : ℚ) - 1/2))
        else sigma_star.data j }
  , { sigma_star_cumsum with data := fun j =>
        if (olo ≤ j + sslo ∧ j + sslo ≤ ohi + 1) ∧ j + sslo ≤ ohi + 1 then
          fac * (((((j + sslo) - ghi : ℤ) : ℚ) - 1/2) * ((((j + sslo) - ghi : ℤ) : ℚ) - 1/2)
                  * ((((j + sslo) - ghi : ℤ) : ℚ) - 1/2)) / 3 / PhysConst.c
        else sigma_star_cumsum.data j } )

/-! ### Decay-factor cache (`SigmaBox`/`MultiSigmaBox` factor computation) -/

/-- Per-block profile and factor arrays of a `SigmaBox`, one array per axis.
Array sizes coincide across the profile/factor pairs by construction
(`SigmaBox::SigmaBox` resizes all eight arrays to `sz[idim]+1`). -/
structure SigmaBox where
  sigma : Fin 3 → List ℚ
  sigma_cumsum : Fin 3 → List ℚ
  sigma_star : Fin 3 → List ℚ
  sigma_star_cumsum : Fin 3 → List ℚ
  sigma_fac : Fin 3 → List ℚ
  sigma_cumsum_fac : Fin 3 → List ℚ
  sigma_star_fac : Fin 3 → List ℚ
  sigma_star_cumsum_fac : Fin 3 → List ℚ

/-- Empty per-axis profile array collection. -/
def noProfile : Fin 3 → List ℚ := fun _ => []

instance : Inhabited SigmaBox :=
  ⟨⟨noProfile, noProfile, noProfile, noProfile,
    noProfile, noProfile, noProfile, noProfile⟩⟩

namespace SigmaBox

/-- `SigmaBox::ComputePMLFactorsB`: for every axis and every element, write
`sigma_star_fac[i] = exp(-sigma_star[i]*dt)` and
`sigma_star_cumsum_fac[i] = exp(-sigma_star_cumsum[i]*dx[idim])`.  The
exponential is the abstract parameter `EXP` (the code calls `std::exp`). -/
def ComputePMLFactorsB (EXP : ℚ → ℚ) (dx : Fin 3 → ℚ) (dt : ℚ) (sb : SigmaBox) : SigmaBox :=
  { sb with
    sigma_star_fac := fun d => (sb.sigma_star d).map fun v => EXP (-(v * dt))
    sigma_star_cumsum_fac := fun d => (sb.sigma_star_cumsum d).map fun v => EXP (-(v * dx d)) }

/-- `SigmaBox::ComputePMLFactorsE`: for every axis and every element, write
`sigma_fac[i] = exp(-sigma[i]*dt)` and
`sigma_cumsum_fac[i] = exp(-sigma_cumsum[i]*dx[idim])`. -/
def ComputePMLFactorsE (EXP : ℚ → ℚ) (dx : Fin 3 → ℚ) (dt : ℚ) (sb : SigmaBox) : SigmaBox :=
  { sb with
    sigma_fac := fun d => (sb.sigma d).map fun v => EXP (-(v * dt))
    sigma_cumsum_fac := fun d => (sb.sigma_cumsum d).map fun v => EXP (-(v * dx d)) }

end SigmaBox

/-- `MultiSigmaBox`: the distributed collection of `SigmaBox` fabs together
with the two independently cached time-step values `dt_B` and `dt_E`. -/
structure MultiSigmaBox where
  fabs : List SigmaBox
  dt_B : ℚ
  dt_E : ℚ

namespace MultiSigmaBox

/-- `MultiSigmaBox::ComputePMLFactorsB`: no-op when `dt == dt_B`; otherwise
record `dt_B = dt` and recompute the B factors of every fab. -/
def ComputePMLFactorsB (EXP : ℚ → ℚ) (dx : Fin 3 → ℚ) (dt : ℚ) (m : MultiSigmaBox) :
    MultiSigmaBox :=
  if dt = m.dt_B then m
  else { m with dt_B := dt, fabs := m.fabs.map (SigmaBox.ComputePMLFactorsB EXP dx dt) }

/-- `MultiSigmaBox::ComputePMLFactorsE`: no-op when `dt == dt_E`; otherwise
record `dt_E = dt` and recompute the E factors of every fab. -/
def ComputePMLFactorsE (EXP : ℚ → ℚ) (dx : Fin 3 → ℚ) (dt : ℚ) (m : MultiSigmaBox) :
    MultiSigmaBox :=
  if dt = m.dt_E then m
  else { m with dt_E := dt, fabs := m.fabs.map (SigmaBox.ComputePMLFactorsE EXP dx dt) }

end MultiSigmaBox

/-! ### Box-list geometry primitives

These implement the AMReX `Box`/`BoxArray` collaborator operations used by
`PML::MakeBoxArray` and `PML::Exchange` with their standard semantics
(`amrex::boxDiff`, `BoxArray::complementIn`, `BoxArray::removeOverlap`):
box subtraction by per-dimension chopping, iterated subtraction for the
complement, and subtraction of all earlier boxes for overlap removal. -/

/-- A cell lies in some box of the list. -/
def memList (l : List Box) (x : IntVect) : Prop := ∃ c ∈ l, x ∈ c

instance (l : List Box) (x : IntVect) : Decidable (memList l x) :=
  inferInstanceAs (Decidable (∃ c ∈ l, x ∈ c))

/-- Two boxes share no cell. -/
def BoxDisj (p q : Box) : Prop := ∀ x : IntVect, ¬(x ∈ p ∧ x ∈ q)

/-- Chop off the part of the running box `r` that lies below `b` along axis
`k`, appending it to the output list (first half of one dimension step of
`amrex::boxDiff`). -/
def chopLo (b : Box) (k : Fin 3) (st : List Box × Box) : List Box × Box :=
  let out := st.1
  let r := st.2
  if r.lo k < b.lo k ∧ b.lo k ≤ r.hi k then
    (out ++ [⟨r.lo, Function.update r.hi k (b.lo k - 1)⟩],
     ⟨Function.update r.lo k (b.lo k), r.hi⟩)
  else (out, r)

/-- Chop off the part of the running box `r` that lies above `b` along axis
`k` (second half of one dimension step of `amrex::boxDiff`). -/
def chopHi (b : Box) (k : Fin 3) (st : List Box × Box) : List Box × Box :=
  let out := st.1
  let r := st.2
  if r.lo k ≤ b.hi k ∧ b.hi k < r.hi k then
    (out ++ [⟨Function.update r.lo k (b.hi k + 1), r.hi⟩],
     ⟨r.lo, Function.update r.hi k (b.hi k)⟩)
  else (out, r)

/-- One dimension step of `amrex::boxDiff`. -/
def chopDim (b : Box) (k : Fin 3) (st : List Box × Box) : List Box × Box :=
  chopHi b k (chopLo b k st)

/-- `amrex::boxDiff a b`: boxes tiling the cells of `a` not in `b`; if the
two boxes do not intersect the result is `a` itself, otherwise `a` is chopped
against `b` dimension by dimension. -/
def boxDiff (a b : Box) : List Box :=
  if (a.inter b).ok then (chopDim b 2 (chopDim b 1 (chopDim b 0 ([], a)))).1
  else [a]

/-- Subtract one box from every box of a list (`BoxList` subtraction step). -/
def subtractBox (l : List Box) (g : Box) : List Box :=
  l.foldr (fun c acc => boxDiff c g ++ acc) []

/-- `BoxArray::complementIn bx`: boxes tiling the cells of `bx` covered by
none of the `grids` boxes. -/
def complementIn (grids : List Box) (bx : Box) : List Box :=
  grids.foldl subtractBox [bx]

/-- Subtract every box of `acc` from `b` (the deduplication step of
`BoxArray::removeOverlap` for one incoming box). -/
def subtractAll (b : Box) (acc : List Box) : List Box :=
  acc.foldl subtractBox [b]

/-- Worker for `removeOverlap`: accumulate boxes, keeping of each new box
only the part not already covered. -/
def removeOverlapAux : List Box → List Box → List Box
  | [], acc => acc
  | b :: rest, acc => removeOverlapAux rest (acc ++ subtractAll b acc)

/-- `BoxArray::removeOverlap`: replace a box list by a list with the same
cells and pairwise-disjoint boxes, each contained in one of the originals. -/
def removeOverlap (l : List Box) : List Box := removeOverlapAux l []

/-! ### `PML::MakeBoxArray` -/

/-- Domain description consumed by the layer geometry builder
(`amrex::Geometry`: domain box and per-axis periodicity). -/
structure Geometry where
  domain : Box
  isPeriodic : Fin 3 → Bool

/-- The domain grown by `ncell` on every enabled non-periodic side, exactly as
computed at the top of `PML::MakeBoxArray`. -/
def grownDomain (geom : Geometry) (ncell : ℤ) (do_pml_Lo do_pml_Hi : Fin 3 → Bool) : Box :=
  (List.finRange 3).foldl (fun dom idim =>
    if geom.isPeriodic idim then dom
    else
      let dom1 := if do_pml_Lo idim then dom.growLo idim ncell else dom
      if do_pml_Hi idim then dom1.growHi idim ncell else dom1) geom.domain

/-- The 26 neighbor shift multipliers enumerated by the triple `kk/jj/ii`
loop of `PML::MakeBoxArray` (all sign vectors except the origin). -/
def neighborShifts : List IntVect :=
  [(-1 : ℤ), 0, 1].foldr (fun kk acc =>
    [(-1 : ℤ), 0, 1].foldr (fun jj acc2 =>
      [(-1 : ℤ), 0, 1].foldr (fun ii acc3 =>
        if ii ≠ 0 ∨ jj ≠ 0 ∨ kk ≠ 0 then iv ii jj kk :: acc3 else acc3) acc2) acc) []

/-- The blocking-factor assertion of `PML::MakeBoxArray` fails for this grid
box: some non-periodic axis with an enabled layer boundary has
`length(idim) <= ncell`. -/
def badBlockingFactor (geom : Geometry) (do_pml_Lo do_pml_Hi : Fin 3 → Bool)
    (ncell : ℤ) (grid_bx : Box) : Prop :=
  ∃ idim : Fin 3, geom.isPeriodic idim = false ∧
    (do_pml_Lo idim = true ∨ do_pml_Hi idim = true) ∧ grid_bx.length idim ≤ ncell

instance (geom : Geometry) (plo phi : Fin 3 → Bool) (ncell : ℤ) (bx : Box) :
    Decidable (badBlockingFactor geom plo phi ncell bx) :=
  inferInstanceAs (Decidable (∃ idim : Fin 3, _ ∧ _ ∧ _))

/-- Candidate layer boxes contributed by one interior grid box: the grown and
domain-clipped bounding box is intersected with the 26 shifted neighbor
images, and each piece of the locally uncovered region is intersected with
each such boundary box.  `none` models the fatal blocking-factor abort. -/
def makeBoxArrayStep (geom : Geometry) (grid_ba : List Box) (ncell : ℤ)
    (do_pml_in_domain : Bool) (do_pml_Lo do_pml_Hi : Fin 3 → Bool)
    (domain : Box) (grid_bx : Box) : Option (List Box) :=
  if do_pml_in_domain = false ∧ badBlockingFactor geom do_pml_Lo do_pml_Hi ncell grid_bx then
    none
  else
    let bx := (grid_bx.grow ncell).inter domain
    let bndryboxes := (neighborShifts.map fun s =>
      (grid_bx.shift (grid_bx.size * s)).inter bx).filter (fun b => decide b.ok)
    let noncovered := complementIn grid_ba bx
    some (noncovered.foldr (fun b acc =>
      (bndryboxes.filterMap fun bb =>
        let ib := b.inter bb
        if ib.ok then some ib else none) ++ acc) [])

/-- `PML::MakeBoxArray`: tile the padding region around the interior block
set; `none` models the fatal blocking-factor configuration abort. -/
def MakeBoxArray (geom : Geometry) (grid_ba : List Box) (ncell : ℤ)
    (do_pml_in_domain : Bool) (do_pml_Lo do_pml_Hi : Fin 3 → Bool) : Option (List Box) :=
  let domain := grownDomain geom ncell do_pml_Lo do_pml_Hi
  (grid_ba.mapM (makeBoxArrayStep geom grid_ba ncell do_pml_in_domain
      do_pml_Lo do_pml_Hi domain)).map fun ls => removeOverlap ls.flatten

/-! ### Distributed field arrays and the exchange engine

`MultiFab` models the AMReX distributed field array: a list of fabs (valid
box plus a total data function over cell and component), a ghost-cell width
vector and a component count.  The AMReX data-movement operations used by
`PML::Exchange` (`MultiFab::Copy`, `setVal`, `LinComb`, `Add`,
`ParallelCopy`) are implemented with their documented semantics; values are
exact rationals. -/

/-- One fab of a distributed field: valid box and data, addressed by cell and
component.  Data is meaningful on the valid box grown by the owning
`MultiFab`'s ghost width. -/
structure Fab where
  box : Box
  data : IntVect → ℕ → ℚ

instance : Inhabited Fab := ⟨⟨⟨fun _ => 0, fun _ => -1⟩, fun _ _ => 0⟩⟩

/-- A distributed field array (`amrex::MultiFab`). -/
structure MultiFab where
  fabs : List Fab
  ngrow : IntVect
  nComp : ℕ

/-- Allocate a `MultiFab` over a box list.  The C++ allocation leaves data
uninitialized; the model uses zero, and no claim proved here reads a cell
before it is written. -/
def mkMultiFab (boxes : List Box) (nc : ℕ) (ng : IntVect) : MultiFab :=
  ⟨boxes.map fun b => ⟨b, fun _ _ => 0⟩, ng, nc⟩

namespace MultiFab

/-- `MultiFab::Copy(dst, src, scomp, dcomp, nc, ng)`: fabwise copy between
two `MultiFab`s on the same box array, on the valid boxes grown by `ng`. -/
def Copy (dst src : MultiFab) (scomp dcomp nc : ℕ) (ng : IntVect) : MultiFab :=
  { dst with fabs := List.zipWith (fun fd fs =>
      { fd with data := fun x c =>
          if dcomp ≤ c ∧ c < dcomp + nc ∧ x ∈ fd.box.growVec ng then
            fs.data x (scomp + (c - dcomp))
          else fd.data x c }) dst.fabs src.fabs }

/-- `MultiFab::setVal(v, comp, nc, ng)`: set components `comp..comp+nc-1` to
`v` on the valid boxes grown by `ng`. -/
def setVal (mf : MultiFab) (v : ℚ) (comp nc : ℕ) (ng : IntVect) : MultiFab :=
  { mf with fabs := mf.fabs.map fun f =>
      { f with data := fun x c =>
          if comp ≤ c ∧ c < comp + nc ∧ x ∈ f.box.growVec ng then v
          else f.data x c } }

/-- `MultiFab::LinComb(dst, a, mf, xcomp, b, mf, ycomp, dcomp, nc, ng)` in
the form used by `PML::Exchange`, where both source `MultiFab`s are the same
object: `dst[dcomp..] = a*mf[xcomp..] + b*mf[ycomp..]`. -/
def LinComb (dst : MultiFab) (a : ℚ) (src : MultiFab) (xcomp : ℕ) (b : ℚ)
    (ycomp : ℕ) (dcomp nc : ℕ) (ng : IntVect) : MultiFab :=
  { dst with fabs := List.zipWith (fun fd fs =>
      { fd with data := fun x c =>
          if dcomp ≤ c ∧ c < dcomp + nc ∧ x ∈ fd.box.growVec ng then
            a * fs.data x (xcomp + (c - dcomp)) + b * fs.data x (ycomp + (c - dcomp))
          else fd.data x c }) dst.fabs src.fabs }

/-- `MultiFab::Add(dst, src, scomp, dcomp, nc, ng)`: fabwise addition on the
same box array. -/
def AddFrom (dst src : MultiFab) (scomp dcomp nc : ℕ) (ng : IntVect) : MultiFab :=
  { dst with fabs := List.zipWith (fun fd fs =>
      { fd with data := fun x c =>
          if dcomp ≤ c ∧ c < dcomp + nc ∧ x ∈ fd.box.growVec ng then
            fd.data x c + fs.data x (scomp + (c - dcomp))
          else fd.data x c }) dst.fabs src.fabs }

end MultiFab

/-- Source lookup of `ParallelCopy`: the first source fab index and periodic
shift whose valid box grown by `sng` contains the shifted destination cell. -/
def pcLookup (srcFabs : List Fab) (sng : IntVect) (period : List IntVect)
    (x : IntVect) : Option (ℕ × IntVect) :=
  ((List.range srcFabs.length).foldr (fun i acc => period.map (fun s => (i, s)) ++ acc)
      []).find? fun p => decide (x + p.2 ∈ (srcFabs.getD p.1 default).box.growVec sng)

/-- `MultiFab::ParallelCopy(dst, src, scomp, dcomp, nc, sng, dng, period)`:
periodic-aware distributed copy; each destination cell within the valid box
grown by `dng` that is covered by a (shifted) source fab region receives the
source value. -/
def MultiFab.ParallelCopy (dst src : MultiFab) (scomp dcomp nc : ℕ)
    (sng dng : IntVect) (period : List IntVect) : MultiFab :=
  { dst with fabs := dst.fabs.map fun f =>
      { f with data := fun x c =>
          if dcomp ≤ c ∧ c < dcomp + nc ∧ x ∈ f.box.growVec dng then
            match pcLookup src.fabs sng period x with
            | some (i, s) => (src.fabs.getD i default).data (x + s) (scomp + (c - dcomp))
            | none => f.data x c
          else f.data x c } }

/-- The per-fab ghost-region assignment loop at the end of the
`do_pml_in_domain == 0` branch of `PML::Exchange`: copy component 0 of the
temporary onto the destination on `boxDiff(dst.box(), validbox)` — the fab's
ghost region, excluding every valid cell. -/
def ghostLoop (reg tmp : MultiFab) : MultiFab :=
  { reg with fabs := List.zipWith (fun fd fs =>
      { fd with data := fun x c =>
          if c = 0 ∧ memList (boxDiff (fd.box.growVec reg.ngrow) fd.box) x then
            fs.data x 0
          else fd.data x c }) reg.fabs tmp.fabs }

namespace PML

/-- The sum of the split components of the layer field (`totpmlmf` in
`PML::Exchange`): `LinComb` of components 0 and 1, plus component 2 when the
field has three split components. -/
def totpml (pml : MultiFab) : MultiFab :=
  let totpmlmf0 := MultiFab.LinComb (mkMultiFab (pml.fabs.map (·.box)) 1 0)
    1 pml 0 1 1 0 1 0
  if pml.nComp = 3 then MultiFab.AddFrom totpmlmf0 pml 2 0 1 0 else totpmlmf0

/-- The temporary of the `do_pml_in_domain == 0` branch of `PML::Exchange`:
the interior field copied with its ghost cells, overwritten by the layer sum
where the (shifted) layer valid boxes cover it. -/
def exchangeTmpGhost (pml reg : MultiFab) (period : List IntVect) : MultiFab :=
  MultiFab.ParallelCopy
    (MultiFab.Copy (mkMultiFab (reg.fabs.map (·.box)) pml.nComp reg.ngrow)
      reg 0 0 1 reg.ngrow)
    (totpml pml) 0 0 1 0 reg.ngrow period

/-- `PML::Exchange(pml, reg, geom, do_pml_in_domain)`: sum the split
components of the layer field, push the sum into the interior field (valid
cells when the layer is in the domain, ghost cells only otherwise), then copy
the interior field into the layer's first split component, zero the other
components, and merge into the layer (preserving layer valid data first when
the layer is in the domain).  `period` is the list of periodic shift vectors
of the geometry (including the zero shift). -/
def Exchange (pml reg : MultiFab) (period : List IntVect)
    (do_pml_in_domain : Bool) : MultiFab × MultiFab :=
  let ngr := reg.ngrow
  let ngp := pml.ngrow
  let ncp := pml.nComp
  let tmpregmf0 := mkMultiFab (reg.fabs.map (·.box)) ncp ngr
  let dir1 :=
    if do_pml_in_domain then
      (MultiFab.ParallelCopy reg (totpml pml) 0 0 1 0 0 period, tmpregmf0)
    else if 0 < ngr.maxComp then
      (ghostLoop reg (exchangeTmpGhost pml reg period), exchangeTmpGhost pml reg period)
    else (reg, tmpregmf0)
  let reg1 := dir1.1
  let t2a := MultiFab.Copy dir1.2 reg1 0 0 1 0
  let t2b := MultiFab.setVal t2a 0 1 (ncp - 1) 0
  let t2 := if do_pml_in_domain then MultiFab.ParallelCopy t2b pml 0 0 ncp 0 0 period
            else t2b
  let pml2 := MultiFab.ParallelCopy pml t2 0 0 ncp 0 ngp period
  (pml2, reg1)

end PML

/-- Fine or coarse patch selector (`PatchType`). -/
inductive PatchType where
  | fine : PatchType
  | coarse : PatchType
deriving DecidableEq

/-- The PML container state relevant to construction success and the B-field
exchange: the `m_ok` flag and the optionally allocated per-direction split
B-field groups for the fine and coarse patches. -/
structure PMLState where
  m_ok : Bool
  pml_B_fp : Option (Fin 3 → MultiFab)
  pml_B_cp : Option (Fin 3 → MultiFab)

namespace PML

/-- `PML::ExchangeB(patch_type, Bp, do_pml_in_domain)`: exchange all three
direction components for the requested patch, a no-op when that patch's
field group was never allocated or the interior pointer is null. -/
def ExchangeB (pt : PatchType) (st : PMLState) (Bp : Option (Fin 3 → MultiFab))
    (period cperiod : List IntVect) (do_pml_in_domain : Bool) :
    PMLState × Option (Fin 3 → MultiFab) :=
  match pt with
  | .fine =>
    match st.pml_B_fp, Bp with
    | some pmlB, some bp =>
      let r := fun d => Exchange (pmlB d) (bp d) period do_pml_in_domain
      ({ st with pml_B_fp := some fun d => (r d).1 }, some fun d => (r d).2)
    | some _, none => (st, Bp)
    | none, _ => (st, Bp)
  | .coarse =>
    match st.pml_B_cp, Bp with
    | some pmlB, some bp =>
      let r := fun d => Exchange (pmlB d) (bp d) cperiod do_pml_in_domain
      ({ st with pml_B_cp := some fun d => (r d).1 }, some fun d => (r d).2)
    | some _, none => (st, Bp)
    | none, _ => (st, Bp)

/-- `BoxArray::minimalBox`: bounding box of a box list. -/
def minimalBox : List Box → Box
  | [] => ⟨fun _ => 0, fun _ => -1⟩
  | b :: rest => rest.foldl (fun acc c =>
      ⟨fun k => min (acc.lo k) (c.lo k), fun k => max (acc.hi k) (c.hi k)⟩) b

/-- The single-level part of the `PML::PML` constructor that decides success:
build the layer box array (over the reduced grid in layer-in-domain mode),
and when it is empty return the distinguishable disabled state (`m_ok` false,
no field allocation); otherwise allocate the fields.  `allocB` stands for the
allocation of the split B-field group over the layer boxes (the staggering
queried from the external solver does not affect the claims proved here);
the coarse patch is absent (no coarse companion geometry). -/
def init (geom : Geometry) (grid_ba : List Box) (ncell : ℤ)
    (do_pml_in_domain : Bool) (do_pml_Lo do_pml_Hi : Fin 3 → Bool)
    (allocB : List Box → Fin 3 → MultiFab) : Option PMLState :=
  let domain0 := (List.finRange 3).foldl (fun dom idim =>
    if geom.isPeriodic idim then dom
    else
      let dom1 := if do_pml_Lo idim then dom.growLo idim (-ncell) else dom
      if do_pml_Hi idim then dom1.growHi idim (-ncell) else dom1) (minimalBox grid_ba)
  let grid_ba_reduced := (grid_ba.map (·.inter domain0)).filter (fun b => decide b.ok)
  let ba? := if do_pml_in_domain then
      MakeBoxArray geom grid_ba_reduced ncell true do_pml_Lo do_pml_Hi
    else
      MakeBoxArray geom grid_ba ncell false do_pml_Lo do_pml_Hi
  match ba? with
  | none => none
  | some ba =>
    if ba = [] then some ⟨false, none, none⟩
    else some ⟨true, some (allocB ba), none⟩

end PML

/-! ### Macroscopic-medium permeability dispatch (fine vs. coarse patch) -/

/-- Action taken when initializing a macroscopic-medium property field. -/
inductive MediumInitAction where
  | setConst : MediumInitAction
  | parseExpr : MediumInitAction
  | skip : MediumInitAction
deriving DecidableEq

/-- Fine-patch permeability dispatch (`PML::PML`, fine patch): dispatches on
the permeability selector `m_mu_s` for both branches. -/
def fineMuDispatch (mu_s : String) : MediumInitAction :=
  if mu_s = "constant" then .setConst
  else if mu_s = "parse_mu_function" then .parseExpr
  else .skip

/-- Coarse-patch permeability dispatch (`PML::PML`, coarse patch): the
`constant` branch tests `m_mu_s` but the parse branch tests `m_sigma_s`,
exactly as the code does. -/
def coarseMuDispatch (sigma_s mu_s : String) : MediumInitAction :=
  if mu_s = "constant" then .setConst
  else if sigma_s = "parse_mu_function" then .parseExpr
  else .skip

/-!
## Theorems
-/

/-- Helper: `getD` of a mapped list below its length. -/
theorem getD_map_of_lt {α β : Type _} (f : α → β) (l : List α) (i : ℕ)
    (h : i < l.length) (da : α) (db : β) :
    (l.map f).getD i db = f (l.getD i da) := by
  rw [List.getD_eq_getElem _ _ (by simpa using h), List.getD_eq_getElem _ _ h,
    List.getElem_map]

/-- C10: with a macroscopic medium and a coarse companion level, the claim
says the coarse-patch permeability is parsed from the mu expression exactly
when the permeability selector is `parse_mu_function`, dispatching like the
fine patch.  The code instead tests the conductivity selector `m_sigma_s`
against `parse_mu_function` in the coarse parse branch: with
`m_mu_s = "parse_mu_function"` and `m_sigma_s = "constant"`, the fine patch
parses mu while the coarse patch takes no action. -/
theorem coarse_mu_dispatch_bug :
    fineMuDispatch "parse_mu_function" = MediumInitAction.parseExpr ∧
    coarseMuDispatch "constant" "parse_mu_function" = MediumInitAction.skip ∧
    coarseMuDispatch "constant" "parse_mu_function" ≠
      fineMuDispatch "parse_mu_function" := by
  refine ⟨by decide, by decide, by decide⟩

/-- C3: a second factor computation with the `dt` cached for that field kind
is a no-op; the E and B caches are independent (an E computation changes
neither `dt_B` nor any star array, and a B call with the prior `dt_B` is
still a no-op afterwards, and vice versa); a call with a different `dt`
updates the cached `dt` and recomputes every fab. -/
theorem ComputePMLFactors_cache_idempotent (EXP : ℚ → ℚ) (dx : Fin 3 → ℚ)
    (dt : ℚ) (m : MultiSigmaBox) (hE : dt ≠ m.dt_E) (hB : dt ≠ m.dt_B) :
    (∀ m' : MultiSigmaBox,
      MultiSigmaBox.ComputePMLFactorsE EXP dx dt
        (MultiSigmaBox.ComputePMLFactorsE EXP dx dt m') =
      MultiSigmaBox.ComputePMLFactorsE EXP dx dt m') ∧
    (∀ m' : MultiSigmaBox,
      MultiSigmaBox.ComputePMLFactorsB EXP dx dt
        (MultiSigmaBox.ComputePMLFactorsB EXP dx dt m') =
      MultiSigmaBox.ComputePMLFactorsB EXP dx dt m') ∧
    ((MultiSigmaBox.ComputePMLFactorsE EXP dx dt m).dt_B = m.dt_B) ∧
    ((MultiSigmaBox.ComputePMLFactorsE EXP dx dt m).fabs.map
        (fun b => (b.sigma_star_fac, b.sigma_star_cumsum_fac, b.sigma_star,
          b.sigma_star_cumsum)) =
      m.fabs.map (fun b => (b.sigma_star_fac, b.sigma_star_cumsum_fac, b.sigma_star,
          b.sigma_star_cumsum))) ∧
    ((MultiSigmaBox.ComputePMLFactorsB EXP dx dt m).dt_E = m.dt_E) ∧
    ((MultiSigmaBox.ComputePMLFactorsB EXP dx dt m).fabs.map
        (fun b => (b.sigma_fac, b.sigma_cumsum_fac, b.sigma, b.sigma_cumsum)) =
      m.fabs.map (fun b => (b.sigma_fac, b.sigma_cumsum_fac, b.sigma, b.sigma_cumsum))) ∧
    (MultiSigmaBox.ComputePMLFactorsB EXP dx m.dt_B
        (MultiSigmaBox.ComputePMLFactorsE EXP dx dt m) =
      MultiSigmaBox.ComputePMLFactorsE EXP dx dt m) ∧
    (MultiSigmaBox.ComputePMLFactorsE EXP dx m.dt_E
        (MultiSigmaBox.ComputePMLFactorsB EXP dx dt m) =
      MultiSigmaBox.ComputePMLFactorsB EXP dx dt m) ∧
    ((MultiSigmaBox.ComputePMLFactorsE EXP dx dt m).dt_E = dt ∧
      (MultiSigmaBox.ComputePMLFactorsE EXP dx dt m).fabs =
        m.fabs.map (SigmaBox.ComputePMLFactorsE EXP dx dt)) ∧
    ((MultiSigmaBox.ComputePMLFactorsB EXP dx dt m).dt_B = dt ∧
      (MultiSigmaBox.ComputePMLFactorsB EXP dx dt m).fabs =
        m.fabs.map (SigmaBox.ComputePMLFactorsB EXP dx dt)) := by
  unfold MultiSigmaBox.ComputePMLFactorsE MultiSigmaBox.ComputePMLFactorsB
  refine ⟨?_, ?_, ?_, ?_, ?_, ?_, ?_, ?_, ?_, ?_⟩
  · intro m'
    by_cases h1 : dt = m'.dt_E
    · simp [if_pos h1]
    · rw [if_neg h1]; simp
  · intro m'
    by_cases h1 : dt = m'.dt_B
    · simp [if_pos h1]
    · rw [if_neg h1]; simp
  · simp [if_neg hE]
  · simp [if_neg hE, List.map_map, Function.comp, SigmaBox.ComputePMLFactorsE]
  · simp [if_neg hB]
  · simp [if_neg hB, List.map_map, Function.comp, SigmaBox.ComputePMLFactorsB]
  · simp [if_neg hE]
  · simp [if_neg hB]
  · simp [if_neg hE]
  · simp [if_neg hB]

/-- Witness for the cache theorem at a concrete input. -/
theorem ComputePMLFactors_cache_idempotent_witness :
    ((1 : ℚ) ≠ (0 : ℚ)) ∧
    (MultiSigmaBox.ComputePMLFactorsE id (fun _ => 1) 1 ⟨[], 0, 0⟩).dt_B = (0 : ℚ) := by
  refine ⟨by norm_num, ?_⟩
  exact (ComputePMLFactors_cache_idempotent id (fun _ => 1) 1 ⟨[], 0, 0⟩
    (by norm_num) (by norm_num)).2.2.1

/-- C4: when the factor computation recomputes (requested `dt` differs from
the cached value), it writes, for every fab, axis and index,
`fac[i] = EXP(-profile[i]*dt)` and `cumsumFac[i] = EXP(-cumsumProfile[i]*dx)`:
the E-kind call reads `sigma`/`sigma_cumsum` into `sigma_fac`/`sigma_cumsum_fac`
and the B-kind call reads `sigma_star`/`sigma_star_cumsum` into
`sigma_star_fac`/`sigma_star_cumsum_fac`. -/
theorem ComputePMLFactors_elementwise (EXP : ℚ → ℚ) (dx : Fin 3 → ℚ)
    (dt : ℚ) (m : MultiSigmaBox) (hE : dt ≠ m.dt_E) (hB : dt ≠ m.dt_B) :
    ((MultiSigmaBox.ComputePMLFactorsE EXP dx dt m).fabs.length = m.fabs.length) ∧
    ((MultiSigmaBox.ComputePMLFactorsB EXP dx dt m).fabs.length = m.fabs.length) ∧
    (∀ i, i < m.fabs.length → ∀ d : Fin 3,
      ((((MultiSigmaBox.ComputePMLFactorsE EXP dx dt m).fabs.getD i default).sigma_fac d).length
          = ((m.fabs.getD i default).sigma d).length) ∧
      (∀ j, j < ((m.fabs.getD i default).sigma d).length →
        (((MultiSigmaBox.ComputePMLFactorsE EXP dx dt m).fabs.getD i default).sigma_fac d).getD j 0
          = EXP (-(((m.fabs.getD i default).sigma d).getD j 0 * dt))) ∧
      ((((MultiSigmaBox.ComputePMLFactorsE EXP dx dt m).fabs.getD i default).sigma_cumsum_fac d).length
          = ((m.fabs.getD i default).sigma_cumsum d).length) ∧
      (∀ j, j < ((m.fabs.getD i default).sigma_cumsum d).length →
        (((MultiSigmaBox.ComputePMLFactorsE EXP dx dt m).fabs.getD i default).sigma_cumsum_fac d).getD j 0
          = EXP (-(((m.fabs.getD i default).sigma_cumsum d).getD j 0 * dx d)))) ∧
    (∀ i, i < m.fabs.length → ∀ d : Fin 3,
      ((((MultiSigmaBox.ComputePMLFactorsB EXP dx dt m).fabs.getD i default).sigma_star_fac d).length
          = ((m.fabs.getD i default).sigma_star d).length) ∧
      (∀ j, j < ((m.fabs.getD i default).sigma_star d).length →
        (((MultiSigmaBox.ComputePMLFactorsB EXP dx dt m).fabs.getD i default).sigma_star_fac d).getD j 0
          = EXP (-(((m.fabs.getD i default).sigma_star d).getD j 0 * dt))) ∧
      ((((MultiSigmaBox.ComputePMLFactorsB EXP dx dt m).fabs.getD i default).sigma_star_cumsum_fac d).length
          = ((m.fabs.getD i default).sigma_star_cumsum d).length) ∧
      (∀ j, j < ((m.fabs.getD i default).sigma_star_cumsum d).length →
        (((MultiSigmaBox.ComputePMLFactorsB EXP dx dt m).fabs.getD i default).sigma_star_cumsum_fac d).getD j 0
          = EXP (-(((m.fabs.getD i default).sigma_star_cumsum d).getD j 0 * dx d)))) := by
  have hfE : (MultiSigmaBox.ComputePMLFactorsE EXP dx dt m).fabs =
      m.fabs.map (SigmaBox.ComputePMLFactorsE EXP dx dt) := by
    simp [MultiSigmaBox.ComputePMLFactorsE, if_neg hE]
  have hfB : (MultiSigmaBox.ComputePMLFactorsB EXP dx dt m).fabs =
      m.fabs.map (SigmaBox.ComputePMLFactorsB EXP dx dt) := by
    simp [MultiSigmaBox.ComputePMLFactorsB, if_neg hB]
  refine ⟨by simp [hfE], by simp [hfB], ?_, ?_⟩
  · intro i hi d
    rw [hfE, getD_map_of_lt _ _ _ hi default]
    refine ⟨by simp [SigmaBox.ComputePMLFactorsE], ?_, by simp [SigmaBox.ComputePMLFactorsE], ?_⟩
    · intro j hj
      simp only [SigmaBox.ComputePMLFactorsE]
      exact getD_map_of_lt _ _ _ hj 0 0
    · intro j hj
      simp only [SigmaBox.ComputePMLFactorsE]
      exact getD_map_of_lt _ _ _ hj 0 0
  · intro i hi d
    rw [hfB, getD_map_of_lt _ _ _ hi default]
    refine ⟨by simp [SigmaBox.ComputePMLFactorsB], ?_, by simp [SigmaBox.ComputePMLFactorsB], ?_⟩
    · intro j hj
      simp only [SigmaBox.ComputePMLFactorsB]
      exact getD_map_of_lt _ _ _ hj 0 0
    · intro j hj
      simp only [SigmaBox.ComputePMLFactorsB]
      exact getD_map_of_lt _ _ _ hj 0 0

/-- Witness for the elementwise factor theorem at a concrete input. -/
theorem ComputePMLFactors_elementwise_witness :
    ((1 : ℚ) ≠ (0 : ℚ)) ∧
    (((MultiSigmaBox.ComputePMLFactorsE id (fun _ => 1) 1
        ⟨[⟨fun _ => [2], fun _ => [3], fun _ => [4], fun _ => [5],
           fun _ => [6], fun _ => [7], fun _ => [8], fun _ => [9]⟩], 0, 0⟩).fabs.getD
        0 default).sigma_fac 0).getD 0 0 = -2 := by
  refine ⟨by norm_num, ?_⟩
  have h := (ComputePMLFactors_elementwise id (fun _ => 1) 1
    ⟨[⟨fun _ => [2], fun _ => [3], fun _ => [4], fun _ => [5],
       fun _ => [6], fun _ => [7], fun _ => [8], fun _ => [9]⟩], 0, 0⟩
    (by norm_num) (by norm_num)).2.2.1 0 (by norm_num) 0
  have h2 := h.2.1 0 (by simp)
  simpa using h2

/-- C2: for every index `i` inside the overlap, the low-side fill writes
`sigma[i] = fac*(glo-i)^2` and `sigma_cumsum[i] = fac*(glo-i)^3/3/c`, the
star arrays the same formulas at offset `glo-i-0.5`; the high-side fill uses
offset `i-ghi-1` for the primary arrays and `i-ghi-0.5` for the star arrays;
and `fac = 4*c/(dx_axis*delta^2)` as computed in the `SigmaBox` constructor. -/
theorem FillLoHi_formulas (idim : Fin 3) (s sc ss ssc : Sigma) (overlap grid : Box)
    (dx : ℚ) (delta : ℤ) (i : ℤ)
    (hlo : overlap.lo idim ≤ i) (hhi : i ≤ overlap.hi idim) :
    pmlFac dx delta = 4 * PhysConst.c / (dx * ((delta : ℚ))^2) ∧
    (FillLo idim s sc ss ssc overlap grid (pmlFac dx delta)).1.data (i - s.m_lo)
      = pmlFac dx delta * ((grid.lo idim - i : ℤ) : ℚ)^2 ∧
    (FillLo idim s sc ss ssc overlap grid (pmlFac dx delta)).2.1.data (i - s.m_lo)
      = pmlFac dx delta * ((grid.lo idim - i : ℤ) : ℚ)^3 / 3 / PhysConst.c ∧
    (FillLo idim s sc ss ssc overlap grid (pmlFac dx delta)).2.2.1.data (i - ss.m_lo)
      = pmlFac dx delta * (((grid.lo idim - i : ℤ) : ℚ) - 1/2)^2 ∧
    (FillLo idim s sc ss ssc overlap grid (pmlFac dx delta)).2.2.2.data (i - ss.m_lo)
      = pmlFac dx delta * (((grid.lo idim - i : ℤ) : ℚ) - 1/2)^3 / 3 / PhysConst.c ∧
    (FillHi idim s sc ss ssc overlap grid (pmlFac dx delta)).1.data (i - s.m_lo)
      = pmlFac dx delta * ((i - grid.hi idim - 1 : ℤ) : ℚ)^2 ∧
    (FillHi idim s sc ss ssc overlap grid (pmlFac dx delta)).2.1.data (i - s.m_lo)
      = pmlFac dx delta * ((i - grid.hi idim - 1 : ℤ) : ℚ)^3 / 3 / PhysConst.c ∧
    (FillHi idim s sc ss ssc overlap grid (pmlFac dx delta)).2.2.1.data (i - ss.m_lo)
      = pmlFac dx delta * (((i - grid.hi idim : ℤ) : ℚ) - 1/2)^2 ∧
    (FillHi idim s sc ss ssc overlap grid (pmlFac dx delta)).2.2.2.data (i - ss.m_lo)
      = pmlFac dx delta * (((i - grid.hi idim : ℤ) : ℚ) - 1/2)^3 / 3 / PhysConst.c := by
  have hcond : overlap.lo idim ≤ (i - s.m_lo) + s.m_lo ∧
      (i - s.m_lo) + s.m_lo ≤ overlap.hi idim + 1 := by omega
  have hconds : (overlap.lo idim ≤ (i - ss.m_lo) + ss.m_lo ∧
      (i - ss.m_lo) + ss.m_lo ≤ overlap.hi idim + 1) ∧
      (i - ss.m_lo) + ss.m_lo ≤ overlap.hi idim + 1 := by omega
  refine ⟨?_, ?_, ?_, ?_, ?_, ?_, ?_, ?_, ?_⟩
  · unfold pmlFac
    push_cast
    ring
  all_goals
    simp only [FillLo, FillHi, if_pos hcond, if_pos hconds]
  all_goals
    push_cast
    ring_nf

/-- Witness for the fill-formula theorem at a concrete input. -/
theorem FillLoHi_formulas_witness :
    ((⟨iv 0 0 0, iv 1 0 0⟩ : Box).lo 0 ≤ (0 : ℤ) ∧
     (0 : ℤ) ≤ (⟨iv 0 0 0, iv 1 0 0⟩ : Box).hi 0) ∧
    (FillLo 0 ⟨0, 10, fun _ => 0⟩ ⟨0, 10, fun _ => 0⟩ ⟨0, 10, fun _ => 0⟩
        ⟨0, 10, fun _ => 0⟩ ⟨iv 0 0 0, iv 1 0 0⟩ ⟨iv 5 0 0, iv 9 0 0⟩
        (pmlFac 1 2)).1.data (0 - (0 : ℤ))
      = pmlFac 1 2 * (((⟨iv 5 0 0, iv 9 0 0⟩ : Box).lo 0 - 0 : ℤ) : ℚ)^2 := by
  refine ⟨⟨by decide, by decide⟩, ?_⟩
  exact (FillLoHi_formulas 0 ⟨0, 10, fun _ => 0⟩ ⟨0, 10, fun _ => 0⟩
    ⟨0, 10, fun _ => 0⟩ ⟨0, 10, fun _ => 0⟩ ⟨iv 0 0 0, iv 1 0 0⟩
    ⟨iv 5 0 0, iv 9 0 0⟩ 1 2 0 (by decide) (by decide)).2.1

/-- C7 counterexample: the claim says the primary `sigma` array is written
only for indices inside `[overlap_low, overlap_high]` and no entry outside
that range is modified; but with overlap `[0,1]`, grid low edge `5`, unit
`fac` and an all-zero initial array, `FillLo` writes
`sigma[overlap_high+1] = fac*(5-2)^2 = 9 ≠ 0` — the primary write, like the
star write, extends one entry past the overlap. -/
theorem FillLo_primary_overrun :
    (FillLo 0 ⟨0, 10, fun _ => 0⟩ ⟨0, 10, fun _ => 0⟩ ⟨0, 10, fun _ => 0⟩
        ⟨0, 10, fun _ => 0⟩ ⟨iv 0 0 0, iv 1 0 0⟩ ⟨iv 5 0 0, iv 9 0 0⟩
        1).1.data 2 = 9 ∧ (9 : ℚ) ≠ 0 := by
  constructor
  · simp only [FillLo]
    rw [if_pos (by decide)]
    norm_num [iv]
  · norm_num

/-- C7 amended: both the primary and the star arrays are written exactly for
indices `i` with `overlap_low ≤ i ≤ overlap_high + 1` (one entry past the
primary overlap range in both cases), receiving the quadratic fill values,
and no array entry outside that range is modified, for both `FillLo` and
`FillHi`. -/
theorem FillLoHi_write_ranges (idim : Fin 3) (s sc ss ssc : Sigma)
    (overlap grid : Box) (fac : ℚ) (j : ℤ) :
    ((¬(overlap.lo idim ≤ j + s.m_lo ∧ j + s.m_lo ≤ overlap.hi idim + 1)) →
      (FillLo idim s sc ss ssc overlap grid fac).1.data j = s.data j ∧
      (FillLo idim s sc ss ssc overlap grid fac).2.1.data j = sc.data j ∧
      (FillHi idim s sc ss ssc overlap grid fac).1.data j = s.data j ∧
      (FillHi idim s sc ss ssc overlap grid fac).2.1.data j = sc.data j) ∧
    ((¬(overlap.lo idim ≤ j + ss.m_lo ∧ j + ss.m_lo ≤ overlap.hi idim + 1)) →
      (FillLo idim s sc ss ssc overlap grid fac).2.2.1.data j = ss.data j ∧
      (FillLo idim s sc ss ssc overlap grid fac).2.2.2.data j = ssc.data j ∧
      (FillHi idim s sc ss ssc overlap grid fac).2.2.1.data j = ss.data j ∧
      (FillHi idim s sc ss ssc overlap grid fac).2.2.2.data j = ssc.data j) ∧
    ((overlap.lo idim ≤ j + s.m_lo ∧ j + s.m_lo ≤ overlap.hi idim + 1) →
      (FillLo idim s sc ss ssc overlap grid fac).1.data j
        = fac * ((grid.lo idim - (j + s.m_lo) : ℤ) : ℚ)
            * ((grid.lo idim - (j + s.m_lo) : ℤ) : ℚ) ∧
      (FillHi idim s sc ss ssc overlap grid fac).1.data j
        = fac * (((j + s.m_lo) - grid.hi idim - 1 : ℤ) : ℚ)
            * (((j + s.m_lo) - grid.hi idim - 1 : ℤ) : ℚ)) ∧
    ((overlap.lo idim ≤ j + ss.m_lo ∧ j + ss.m_lo ≤ overlap.hi idim + 1) →
      (FillLo idim s sc ss ssc overlap grid fac).2.2.1.data j
        = fac * ((((grid.lo idim - (j + ss.m_lo) : ℤ) : ℚ) - 1/2)
            * (((grid.lo idim - (j + ss.m_lo) : ℤ) : ℚ) - 1/2)) ∧
      (FillHi idim s sc ss ssc overlap grid fac).2.2.1.data j
        = fac * (((((j + ss.m_lo) - grid.hi idim : ℤ) : ℚ) - 1/2)
            * ((((j + ss.m_lo) - grid.hi idim : ℤ) : ℚ) - 1/2))) := by
  refine ⟨?_, ?_, ?_, ?_⟩
  · intro h
    simp only [FillLo, FillHi, if_neg h]
    simp
  · intro h
    have h2 : ¬((overlap.lo idim ≤ j + ss.m_lo ∧ j + ss.m_lo ≤ overlap.hi idim + 1) ∧
        j + ss.m_lo ≤ overlap.hi idim + 1) := fun hc => h hc.1
    simp only [FillLo, FillHi, if_neg h2]
    simp
  · intro h
    simp only [FillLo, FillHi, if_pos h]
    constructor <;> push_cast <;> ring
  · intro h
    have h2 : (overlap.lo idim ≤ j + ss.m_lo ∧ j + ss.m_lo ≤ overlap.hi idim + 1) ∧
        j + ss.m_lo ≤ overlap.hi idim + 1 := ⟨h, h.2⟩
    simp only [FillLo, FillHi, if_pos h2]
    constructor <;> · push_cast; try ring

/-- Witness for the write-range theorem at a concrete input. -/
theorem FillLoHi_write_ranges_witness :
    (FillLo 0 ⟨0, 10, fun _ => 0⟩ ⟨0, 10, fun _ => 0⟩ ⟨0, 10, fun _ => 0⟩
        ⟨0, 10, fun _ => 0⟩ ⟨iv 0 0 0, iv 1 0 0⟩ ⟨iv 5 0 0, iv 9 0 0⟩
        1).1.data 7 = 0 := by
  have h := (FillLoHi_write_ranges 0 ⟨0, 10, fun _ => 0⟩ ⟨0, 10, fun _ => 0⟩
    ⟨0, 10, fun _ => 0⟩ ⟨0, 10, fun _ => 0⟩ ⟨iv 0 0 0, iv 1 0 0⟩
    ⟨iv 5 0 0, iv 9 0 0⟩ 1 7).1 (by decide)
  exact h.1

/-! ### Geometry lemmas: `boxDiff`, `complementIn`, `removeOverlap` -/

theorem Box.ok_of_mem {b : Box} {x : IntVect} (h : x ∈ b) : b.ok :=
  fun k => le_trans (h k).1 (h k).2

theorem Box.disj_of_not_ok_inter {a b : Box} (h : ¬(a.inter b).ok) (x : IntVect) :
    ¬(x ∈ a ∧ x ∈ b) :=
  fun hc => h (Box.ok_of_mem (Box.mem_inter.mpr hc))

theorem memList_append {l1 l2 : List Box} {x : IntVect} :
    memList (l1 ++ l2) x ↔ memList l1 x ∨ memList l2 x := by
  simp [memList, List.mem_append, or_and_right, exists_or]

theorem memList_nil {x : IntVect} : ¬ memList [] x := by simp [memList]

theorem memList_singleton {c : Box} {x : IntVect} : memList [c] x ↔ x ∈ c := by
  simp [memList]

/-- Membership in a box whose high corner is updated along one axis. -/
theorem mem_update_hi_iff {lov hiv : IntVect} {k : Fin 3} {v : ℤ} {x : IntVect} :
    x ∈ (⟨lov, Function.update hiv k v⟩ : Box) ↔
      (∀ j, lov j ≤ x j) ∧ (∀ j, j ≠ k → x j ≤ hiv j) ∧ x k ≤ v := by
  simp only [Box.mem_def]
  constructor
  · intro h
    refine ⟨fun j => (h j).1, fun j hj => ?_, ?_⟩
    · have h2 := (h j).2
      rwa [Function.update_noteq hj] at h2
    · have h2 := (h k).2
      rwa [Function.update_same] at h2
  · rintro ⟨h1, h2, h3⟩ j
    refine ⟨h1 j, ?_⟩
    by_cases hjk : j = k
    · subst hjk; rwa [Function.update_same]
    · rw [Function.update_noteq hjk]; exact h2 j hjk

/-- Membership in a box whose low corner is updated along one axis. -/
theorem mem_update_lo_iff {lov hiv : IntVect} {k : Fin 3} {v : ℤ} {x : IntVect} :
    x ∈ (⟨Function.update lov k v, hiv⟩ : Box) ↔
      (∀ j, x j ≤ hiv j) ∧ (∀ j, j ≠ k → lov j ≤ x j) ∧ v ≤ x k := by
  simp only [Box.mem_def]
  constructor
  · intro h
    refine ⟨fun j => (h j).2, fun j hj => ?_, ?_⟩
    · have h2 := (h j).1
      rwa [Function.update_noteq hj] at h2
    · have h2 := (h k).1
      rwa [Function.update_same] at h2
  · rintro ⟨h1, h2, h3⟩ j
    refine ⟨?_, h1 j⟩
    by_cases hjk : j = k
    · subst hjk; rwa [Function.update_same]
    · rw [Function.update_noteq hjk]; exact h2 j hjk

/-- Invariant carried by the chopping state: output pieces are pairwise
disjoint and each is disjoint from the running box. -/
def StInv (st : List Box × Box) : Prop :=
  st.1.Pairwise BoxDisj ∧ ∀ c ∈ st.1, BoxDisj c st.2

theorem chopLo_cover (b : Box) (k : Fin 3) (st : List Box × Box) (x : IntVect) :
    (memList (chopLo b k st).1 x ∨ x ∈ (chopLo b k st).2) ↔
      (memList st.1 x ∨ x ∈ st.2) := by
  unfold chopLo
  by_cases hg : st.2.lo k < b.lo k ∧ b.lo k ≤ st.2.hi k
  · simp only [if_pos hg, memList_append, memList_singleton]
    have hsub : (x ∈ (⟨st.2.lo, Function.update st.2.hi k (b.lo k - 1)⟩ : Box) ∨
        x ∈ (⟨Function.update st.2.lo k (b.lo k), st.2.hi⟩ : Box)) ↔ x ∈ st.2 := by
      rw [mem_update_hi_iff, mem_update_lo_iff]
      constructor
      · rintro (⟨h1, h2, h3⟩ | ⟨h1, h2, h3⟩) j
        · by_cases hjk : j = k
          · subst hjk; exact ⟨h1 j, by omega⟩
          · exact ⟨h1 j, h2 j hjk⟩
        · by_cases hjk : j = k
          · subst hjk; exact ⟨by omega, h1 j⟩
          · exact ⟨h2 j hjk, h1 j⟩
      · intro hr
        by_cases hxk : x k < b.lo k
        · exact Or.inl ⟨fun j => (hr j).1, fun j _ => (hr j).2, by omega⟩
        · exact Or.inr ⟨fun j => (hr j).2, fun j _ => (hr j).1, by omega⟩
    tauto
  · simp only [if_neg hg]

theorem chopLo_sub (b : Box) (k : Fin 3) (st : List Box × Box) (x : IntVect)
    (h : x ∈ (chopLo b k st).2) : x ∈ st.2 := by
  unfold chopLo at h
  by_cases hg : st.2.lo k < b.lo k ∧ b.lo k ≤ st.2.hi k
  · rw [if_pos hg] at h
    rw [mem_update_lo_iff] at h
    intro j
    by_cases hjk : j = k
    · subst hjk; exact ⟨by omega, h.1 j⟩
    · exact ⟨h.2.1 j hjk, h.1 j⟩
  · rwa [if_neg hg] at h

theorem chopLo_pieces (b : Box) (k : Fin 3) (st : List Box × Box) (c : Box)
    (h : c ∈ (chopLo b k st).1) :
    c ∈ st.1 ∨ (∀ x, x ∈ c → x ∈ st.2 ∧ ¬(b.lo k ≤ x k ∧ x k ≤ b.hi k)) := by
  unfold chopLo at h
  by_cases hg : st.2.lo k < b.lo k ∧ b.lo k ≤ st.2.hi k
  · rw [if_pos hg] at h
    rcases List.mem_append.mp h with h1 | h1
    · exact Or.inl h1
    · right
      rcases List.mem_singleton.mp h1 with rfl
      intro x hx
      rw [mem_update_hi_iff] at hx
      refine ⟨fun j => ?_, by omega⟩
      by_cases hjk : j = k
      · subst hjk; exact ⟨hx.1 j, by omega⟩
      · exact ⟨hx.1 j, hx.2.1 j hjk⟩
  · rw [if_neg hg] at h
    exact Or.inl h

theorem chopLo_stinv (b : Box) (k : Fin 3) (st : List Box × Box)
    (h : StInv st) : StInv (chopLo b k st) := by
  unfold chopLo
  by_cases hg : st.2.lo k < b.lo k ∧ b.lo k ≤ st.2.hi k
  · rw [if_pos hg]
    have hpiece : ∀ x, x ∈ (⟨st.2.lo, Function.update st.2.hi k (b.lo k - 1)⟩ : Box) →
        x ∈ st.2 ∧ x k < b.lo k := by
      intro x hx
      rw [mem_update_hi_iff] at hx
      refine ⟨fun j => ?_, by omega⟩
      by_cases hjk : j = k
      · subst hjk; exact ⟨hx.1 j, by omega⟩
      · exact ⟨hx.1 j, hx.2.1 j hjk⟩
    constructor
    · refine List.pairwise_append.mpr ⟨h.1, List.pairwise_singleton _ _, ?_⟩
      intro c hc p hp
      rcases List.mem_singleton.mp hp with rfl
      intro x hx
      exact h.2 c hc x ⟨hx.1, (hpiece x hx.2).1⟩
    · intro c hc
      rcases List.mem_append.mp hc with h1 | h1
      · intro x hx
        rw [mem_update_lo_iff] at hx
        have hxr : x ∈ st.2 := by
          intro j
          by_cases hjk : j = k
          · subst hjk; exact ⟨by omega, hx.2.1 j⟩
          · exact ⟨hx.2.2.1 j hjk, hx.2.1 j⟩
        exact h.2 c h1 x ⟨hx.1, hxr⟩
      · rcases List.mem_singleton.mp h1 with rfl
        intro x hx
        have h1 := (hpiece x hx.1).2
        have h2 := (mem_update_lo_iff.mp hx.2).2.2
        omega
  · simp only [if_neg hg]
    exact h

theorem chopHi_cover (b : Box) (k : Fin 3) (st : List Box × Box) (x : IntVect) :
    (memList (chopHi b k st).1 x ∨ x ∈ (chopHi b k st).2) ↔
      (memList st.1 x ∨ x ∈ st.2) := by
  unfold chopHi
  by_cases hg : st.2.lo k ≤ b.hi k ∧ b.hi k < st.2.hi k
  · simp only [if_pos hg, memList_append, memList_singleton]
    have hsub : (x ∈ (⟨Function.update st.2.lo k (b.hi k + 1), st.2.hi⟩ : Box) ∨
        x ∈ (⟨st.2.lo, Function.update st.2.hi k (b.hi k)⟩ : Box)) ↔ x ∈ st.2 := by
      rw [mem_update_hi_iff, mem_update_lo_iff]
      constructor
      · rintro (⟨h1, h2, h3⟩ | ⟨h1, h2, h3⟩) j
        · by_cases hjk : j = k
          · subst hjk; exact ⟨by omega, h1 j⟩
          · exact ⟨h2 j hjk, h1 j⟩
        · by_cases hjk : j = k
          · subst hjk; exact ⟨h1 j, by omega⟩
          · exact ⟨h1 j, h2 j hjk⟩
      · intro hr
        by_cases hxk : b.hi k < x k
        · exact Or.inl ⟨fun j => (hr j).2, fun j _ => (hr j).1, by omega⟩
        · exact Or.inr ⟨fun j => (hr j).1, fun j _ => (hr j).2, by omega⟩
    tauto
  · simp only [if_neg hg]

theorem chopHi_sub (b : Box) (k : Fin 3) (st : List Box × Box) (x : IntVect)
    (h : x ∈ (chopHi b k st).2) : x ∈ st.2 := by
  unfold chopHi at h
  by_cases hg : st.2.lo k ≤ b.hi k ∧ b.hi k < st.2.hi k
  · rw [if_pos hg] at h
    rw [mem_update_hi_iff] at h
    intro j
    by_cases hjk : j = k
    · subst hjk; exact ⟨h.1 j, by omega⟩
    · exact ⟨h.1 j, h.2.1 j hjk⟩
  · rwa [if_neg hg] at h

theorem chopHi_pieces (b : Box) (k : Fin 3) (st : List Box × Box) (c : Box)
    (h : c ∈ (chopHi b k st).1) :
    c ∈ st.1 ∨ (∀ x, x ∈ c → x ∈ st.2 ∧ ¬(b.lo k ≤ x k ∧ x k ≤ b.hi k)) := by
  unfold chopHi at h
  by_cases hg : st.2.lo k ≤ b.hi k ∧ b.hi k < st.2.hi k
  · rw [if_pos hg] at h
    rcases List.mem_append.mp h with h1 | h1
    · exact Or.inl h1
    · right
      rcases List.mem_singleton.mp h1 with rfl
      intro x hx
      rw [mem_update_lo_iff] at hx
      refine ⟨fun j => ?_, by omega⟩
      by_cases hjk : j = k
      · subst hjk; exact ⟨by omega, hx.1 j⟩
      · exact ⟨hx.2.1 j hjk, hx.1 j⟩
  · rw [if_neg hg] at h
    exact Or.inl h

theorem chopHi_stinv (b : Box) (k : Fin 3) (st : List Box × Box)
    (h : StInv st) : StInv (chopHi b k st) := by
  unfold chopHi
  by_cases hg : st.2.lo k ≤ b.hi k ∧ b.hi k < st.2.hi k
  · rw [if_pos hg]
    have hpiece : ∀ x, x ∈ (⟨Function.update st.2.lo k (b.hi k + 1), st.2.hi⟩ : Box) →
        x ∈ st.2 ∧ b.hi k < x k := by
      intro x hx
      rw [mem_update_lo_iff] at hx
      refine ⟨fun j => ?_, by omega⟩
      by_cases hjk : j = k
      · subst hjk; exact ⟨by omega, hx.1 j⟩
      · exact ⟨hx.2.1 j hjk, hx.1 j⟩
    constructor
    · refine List.pairwise_append.mpr ⟨h.1, List.pairwise_singleton _ _, ?_⟩
      intro c hc p hp
      rcases List.mem_singleton.mp hp with rfl
      intro x hx
      exact h.2 c hc x ⟨hx.1, (hpiece x hx.2).1⟩
    · intro c hc
      rcases List.mem_append.mp hc with h1 | h1
      · intro x hx
        rw [mem_update_hi_iff] at hx
        have hxr : x ∈ st.2 := by
          intro j
          by_cases hjk : j = k
          · subst hjk; exact ⟨hx.2.1 j, by omega⟩
          · exact ⟨hx.2.1 j, hx.2.2.1 j hjk⟩
        exact h.2 c h1 x ⟨hx.1, hxr⟩
      · rcases List.mem_singleton.mp h1 with rfl
        intro x hx
        have h1 := (hpiece x hx.1).2
        have h2 := (mem_update_hi_iff.mp hx.2).2.2
        omega
  · simp only [if_neg hg]
    exact h

/-! `chopDim` combinations and the per-dimension range constraint. -/

theorem chopDim_cover (b : Box) (k : Fin 3) (st : List Box × Box) (x : IntVect) :
    (memList (chopDim b k st).1 x ∨ x ∈ (chopDim b k st).2) ↔
      (memList st.1 x ∨ x ∈ st.2) := by
  unfold chopDim
  rw [chopHi_cover, chopLo_cover]

theorem chopDim_sub (b : Box) (k : Fin 3) (st : List Box × Box) (x : IntVect)
    (h : x ∈ (chopDim b k st).2) : x ∈ st.2 :=
  chopLo_sub b k st x (chopHi_sub b k _ x h)

theorem chopDim_pieces (b : Box) (k : Fin 3) (st : List Box × Box) (c : Box)
    (h : c ∈ (chopDim b k st).1) :
    c ∈ st.1 ∨ (∀ x, x ∈ c → x ∈ st.2 ∧ ¬(b.lo k ≤ x k ∧ x k ≤ b.hi k)) := by
  unfold chopDim at h
  rcases chopHi_pieces b k _ c h with h1 | h1
  · rcases chopLo_pieces b k st c h1 with h2 | h2
    · exact Or.inl h2
    · exact Or.inr h2
  · right
    intro x hx
    rcases h1 x hx with ⟨hsub, hviol⟩
    exact ⟨chopLo_sub b k st x hsub, hviol⟩

theorem chopDim_stinv (b : Box) (k : Fin 3) (st : List Box × Box)
    (h : StInv st) : StInv (chopDim b k st) :=
  chopHi_stinv b k _ (chopLo_stinv b k st h)

theorem chopDim_lo_other (b : Box) (k j : Fin 3) (hj : j ≠ k) (st : List Box × Box) :
    (chopDim b k st).2.lo j = st.2.lo j ∧ (chopDim b k st).2.hi j = st.2.hi j := by
  unfold chopDim chopHi chopLo
  by_cases hg1 : st.2.lo k < b.lo k ∧ b.lo k ≤ st.2.hi k <;>
    simp only [if_pos, if_neg, hg1, ite_true, ite_false] <;>
    split_ifs <;>
    simp [Function.update_noteq hj]

/-- After chopping along `k`, every cell of the running box satisfies the `k`
slab constraint of `b`, provided `b` meets the running box along `k`. -/
theorem chopDim_rc (b : Box) (k : Fin 3) (st : List Box × Box)
    (h1 : b.lo k ≤ st.2.hi k) (h2 : st.2.lo k ≤ b.hi k) (h3 : b.lo k ≤ b.hi k)
    (x : IntVect) (hx : x ∈ (chopDim b k st).2) :
    b.lo k ≤ x k ∧ x k ≤ b.hi k := by
  unfold chopDim chopHi chopLo at hx
  dsimp only at hx
  split_ifs at hx with hg1 hg2 hg2
  all_goals
    have ha := (hx k).1
    have hb := (hx k).2
    simp only [Function.update_same] at ha hb
    try simp only [Function.update_same] at hg2
    omega

theorem Box.inter_ok_facts {a b : Box} (h : (a.inter b).ok) (k : Fin 3) :
    b.lo k ≤ a.hi k ∧ a.lo k ≤ b.hi k ∧ b.lo k ≤ b.hi k := by
  have h2 := h k
  simp only [Box.inter, max_le_iff, le_min_iff] at h2
  exact ⟨h2.1.2, h2.2.1, h2.2.2⟩

/-- Every cell of every `boxDiff` piece lies in `a` and outside `b`. -/
theorem boxDiff_piece_props {a b : Box} {c : Box} (hc : c ∈ boxDiff a b)
    {x : IntVect} (hx : x ∈ c) : x ∈ a ∧ ¬ x ∈ b := by
  unfold boxDiff at hc
  by_cases hok : (a.inter b).ok
  · rw [if_pos hok] at hc
    have sub1 : ∀ y : IntVect, y ∈ (chopDim b 0 ([], a)).2 → y ∈ a :=
      fun y hy => chopDim_sub b 0 ([], a) y hy
    have sub2 : ∀ y : IntVect, y ∈ (chopDim b 1 (chopDim b 0 ([], a))).2 → y ∈ a :=
      fun y hy => sub1 y (chopDim_sub b 1 _ y hy)
    rcases chopDim_pieces b 2 _ c hc with h1 | h1
    · rcases chopDim_pieces b 1 _ c h1 with h2 | h2
      · rcases chopDim_pieces b 0 _ c h2 with h3 | h3
        · exact absurd h3 (List.not_mem_nil c)
        · rcases h3 x hx with ⟨hsub, hviol⟩
          exact ⟨hsub, fun hb => hviol ⟨(hb 0).1, (hb 0).2⟩⟩
      · rcases h2 x hx with ⟨hsub, hviol⟩
        exact ⟨sub1 x hsub, fun hb => hviol ⟨(hb 1).1, (hb 1).2⟩⟩
    · rcases h1 x hx with ⟨hsub, hviol⟩
      exact ⟨sub2 x hsub, fun hb => hviol ⟨(hb 2).1, (hb 2).2⟩⟩
  · rw [if_neg hok] at hc
    rcases List.mem_singleton.mp hc with rfl
    exact ⟨hx, fun hb => Box.disj_of_not_ok_inter hok x ⟨hx, hb⟩⟩

/-- The `boxDiff` pieces tile exactly the cells of `a` outside `b`. -/
theorem boxDiff_union (a b : Box) (x : IntVect) :
    memList (boxDiff a b) x ↔ x ∈ a ∧ ¬ x ∈ b := by
  constructor
  · rintro ⟨c, hc, hx⟩
    exact boxDiff_piece_props hc hx
  · rintro ⟨hxa, hxb⟩
    unfold boxDiff
    by_cases hok : (a.inter b).ok
    · rw [if_pos hok]
      have hcov : (memList (chopDim b 2 (chopDim b 1 (chopDim b 0 ([], a)))).1 x ∨
          x ∈ (chopDim b 2 (chopDim b 1 (chopDim b 0 ([], a)))).2) ↔
          (memList ([] : List Box) x ∨ x ∈ a) := by
        rw [chopDim_cover, chopDim_cover, chopDim_cover]
      rcases hcov.mpr (Or.inr hxa) with h | h
      · exact h
      · exfalso
        apply hxb
        have hx2 : x ∈ (chopDim b 1 (chopDim b 0 ([], a))).2 := chopDim_sub b 2 _ x h
        have hx1 : x ∈ (chopDim b 0 ([], a)).2 := chopDim_sub b 1 _ x hx2
        have hf0 := Box.inter_ok_facts hok 0
        have hf1 := Box.inter_ok_facts hok 1
        have hf2 := Box.inter_ok_facts hok 2
        have hoth1 := chopDim_lo_other b 0 1 (by decide) ([], a)
        have hoth2a := chopDim_lo_other b 0 2 (by decide) ([], a)
        have hoth2b := chopDim_lo_other b 1 2 (by decide) (chopDim b 0 ([], a))
        have c0 := chopDim_rc b 0 ([], a) hf0.1 hf0.2.1 hf0.2.2 x hx1
        have c1 := chopDim_rc b 1 (chopDim b 0 ([], a))
          (by rw [hoth1.2]; exact hf1.1) (by rw [hoth1.1]; exact hf1.2.1)
          hf1.2.2 x hx2
        have c2 := chopDim_rc b 2 (chopDim b 1 (chopDim b 0 ([], a)))
          (by rw [hoth2b.2, hoth2a.2]; exact hf2.1)
          (by rw [hoth2b.1, hoth2a.1]; exact hf2.2.1)
          hf2.2.2 x h
        intro k
        fin_cases k
        · exact c0
        · exact c1
        · exact c2
    · rw [if_neg hok]
      exact memList_singleton.mpr hxa

/-- The `boxDiff` pieces are pairwise disjoint. -/
theorem boxDiff_pairwise (a b : Box) : (boxDiff a b).Pairwise BoxDisj := by
  unfold boxDiff
  by_cases hok : (a.inter b).ok
  · rw [if_pos hok]
    have h0 : StInv ([], a) := ⟨List.Pairwise.nil, by simp⟩
    exact (chopDim_stinv b 2 _ (chopDim_stinv b 1 _ (chopDim_stinv b 0 _ h0))).1
  · rw [if_neg hok]
    exact List.pairwise_singleton _ _

theorem mem_foldr_append {α β : Type _} (f : α → List β) (l : List α) (c : β) :
    c ∈ l.foldr (fun b acc => f b ++ acc) [] ↔ ∃ b ∈ l, c ∈ f b := by
  induction l with
  | nil => simp
  | cons a l ih => simp [ih]

theorem mem_subtractBox {l : List Box} {g c : Box} :
    c ∈ subtractBox l g ↔ ∃ c₀ ∈ l, c ∈ boxDiff c₀ g :=
  mem_foldr_append _ l c

theorem subtractBox_union (l : List Box) (g : Box) (x : IntVect) :
    memList (subtractBox l g) x ↔ memList l x ∧ ¬ x ∈ g := by
  constructor
  · rintro ⟨c, hc, hx⟩
    rcases mem_subtractBox.mp hc with ⟨c₀, hc₀, hcd⟩
    rcases boxDiff_piece_props hcd hx with ⟨hxc₀, hxg⟩
    exact ⟨⟨c₀, hc₀, hxc₀⟩, hxg⟩
  · rintro ⟨⟨c₀, hc₀, hxc₀⟩, hxg⟩
    rcases (boxDiff_union c₀ g x).mpr ⟨hxc₀, hxg⟩ with ⟨c, hc, hx⟩
    exact ⟨c, mem_subtractBox.mpr ⟨c₀, hc₀, hc⟩, hx⟩

theorem subtractBox_piece_origin {l : List Box} {g c : Box}
    (hc : c ∈ subtractBox l g) :
    ∃ c₀ ∈ l, ∀ x : IntVect, x ∈ c → x ∈ c₀ ∧ ¬ x ∈ g := by
  rcases mem_subtractBox.mp hc with ⟨c₀, hc₀, hcd⟩
  exact ⟨c₀, hc₀, fun x hx => boxDiff_piece_props hcd hx⟩

theorem subtractBox_pairwise {l : List Box} (g : Box) (h : l.Pairwise BoxDisj) :
    (subtractBox l g).Pairwise BoxDisj := by
  induction l with
  | nil => exact List.Pairwise.nil
  | cons a l ih =>
    have hstep : subtractBox (a :: l) g = boxDiff a g ++ subtractBox l g := rfl
    rw [hstep]
    rcases List.pairwise_cons.mp h with ⟨ha, hl⟩
    refine List.pairwise_append.mpr ⟨boxDiff_pairwise a g, ih hl, ?_⟩
    intro c₁ h₁ c₂ h₂ x hx
    rcases subtractBox_piece_origin h₂ with ⟨c₀, hc₀, hsub⟩
    exact ha c₀ hc₀ x ⟨(boxDiff_piece_props h₁ hx.1).1, (hsub x hx.2).1⟩

theorem foldl_subtract_union (gs : List Box) (l : List Box) (x : IntVect) :
    memList (gs.foldl subtractBox l) x ↔ memList l x ∧ ∀ g ∈ gs, ¬ x ∈ g := by
  induction gs generalizing l with
  | nil => simp [memList]
  | cons g gs ih =>
    rw [List.foldl_cons, ih, subtractBox_union]
    constructor
    · rintro ⟨⟨h1, h2⟩, h3⟩
      exact ⟨h1, fun g' hg' => by rcases List.mem_cons.mp hg' with rfl | hg'
                                  exacts [h2, h3 g' hg']⟩
    · rintro ⟨h1, h2⟩
      exact ⟨⟨h1, h2 g (List.mem_cons_self g gs)⟩,
        fun g' hg' => h2 g' (List.mem_cons_of_mem g hg')⟩

theorem foldl_subtract_piece (gs : List Box) (l : List Box) (c : Box)
    (hc : c ∈ gs.foldl subtractBox l) :
    ∃ c₀ ∈ l, ∀ x : IntVect, x ∈ c → x ∈ c₀ ∧ ∀ g ∈ gs, ¬ x ∈ g := by
  induction gs generalizing l with
  | nil => exact ⟨c, hc, fun x hx => ⟨hx, by simp⟩⟩
  | cons g gs ih =>
    rw [List.foldl_cons] at hc
    rcases ih (subtractBox l g) hc with ⟨c₁, hc₁, hsub⟩
    rcases subtractBox_piece_origin hc₁ with ⟨c₀, hc₀, hsub₀⟩
    refine ⟨c₀, hc₀, fun x hx => ?_⟩
    rcases hsub x hx with ⟨hxc₁, hgs⟩
    rcases hsub₀ x hxc₁ with ⟨hxc₀, hxg⟩
    refine ⟨hxc₀, fun g' hg' => ?_⟩
    rcases List.mem_cons.mp hg' with rfl | hg'
    exacts [hxg, hgs g' hg']

theorem foldl_subtract_pairwise (gs : List Box) (l : List Box)
    (h : l.Pairwise BoxDisj) : (gs.foldl subtractBox l).Pairwise BoxDisj := by
  induction gs generalizing l with
  | nil => exact h
  | cons g gs ih => exact ih _ (subtractBox_pairwise g h)

theorem complementIn_union (gs : List Box) (bx : Box) (x : IntVect) :
    memList (complementIn gs bx) x ↔ x ∈ bx ∧ ∀ g ∈ gs, ¬ x ∈ g := by
  rw [complementIn, foldl_subtract_union, memList_singleton]

theorem complementIn_piece (gs : List Box) (bx : Box) (c : Box)
    (hc : c ∈ complementIn gs bx) :
    ∀ x : IntVect, x ∈ c → x ∈ bx ∧ ∀ g ∈ gs, ¬ x ∈ g := by
  rcases foldl_subtract_piece gs [bx] c hc with ⟨c₀, hc₀, hsub⟩
  rcases List.mem_singleton.mp hc₀ with rfl
  exact hsub

theorem subtractAll_piece (b : Box) (acc : List Box) (c : Box)
    (hc : c ∈ subtractAll b acc) :
    ∀ x : IntVect, x ∈ c → x ∈ b ∧ ∀ a ∈ acc, ¬ x ∈ a := by
  rcases foldl_subtract_piece acc [b] c hc with ⟨c₀, hc₀, hsub⟩
  rcases List.mem_singleton.mp hc₀ with rfl
  exact hsub

theorem subtractAll_pairwise (b : Box) (acc : List Box) :
    (subtractAll b acc).Pairwise BoxDisj :=
  foldl_subtract_pairwise acc [b] (List.pairwise_singleton _ _)

theorem removeOverlapAux_props (l : List Box) :
    ∀ (acc l₀ : List Box), acc.Pairwise BoxDisj →
    (∀ c ∈ acc, ∃ c₀ ∈ l₀, ∀ x : IntVect, x ∈ c → x ∈ c₀) →
    (∀ b ∈ l, b ∈ l₀) →
    (removeOverlapAux l acc).Pairwise BoxDisj ∧
    ∀ c ∈ removeOverlapAux l acc, ∃ c₀ ∈ l₀, ∀ x : IntVect, x ∈ c → x ∈ c₀ := by
  induction l with
  | nil => exact fun acc l₀ hpw horig _ => ⟨hpw, horig⟩
  | cons b rest ih =>
    intro acc l₀ hpw horig hl
    apply ih
    · refine List.pairwise_append.mpr ⟨hpw, subtractAll_pairwise b acc, ?_⟩
      intro c₁ h₁ c₂ h₂ x hx
      exact (subtractAll_piece b acc c₂ h₂ x hx.2).2 c₁ h₁ hx.1
    · intro c hc
      rcases List.mem_append.mp hc with h1 | h1
      · exact horig c h1
      · exact ⟨b, hl b (List.mem_cons_self b rest),
          fun x hx => (subtractAll_piece b acc c h1 x hx).1⟩
    · exact fun b' hb' => hl b' (List.mem_cons_of_mem b hb')

theorem removeOverlap_props (l : List Box) :
    (removeOverlap l).Pairwise BoxDisj ∧
    ∀ c ∈ removeOverlap l, ∃ c₀ ∈ l, ∀ x : IntVect, x ∈ c → x ∈ c₀ :=
  removeOverlapAux_props l [] l List.Pairwise.nil (by simp) (fun _ hb => hb)

theorem mapM_some_mem {α β : Type _} (f : α → Option β) (l : List α) :
    ∀ res : List β, l.mapM f = some res → ∀ r ∈ res, ∃ a ∈ l, f a = some r := by
  induction l with
  | nil =>
    intro res h r hr
    simp only [List.mapM_nil, Option.pure_def, Option.some.injEq] at h
    subst h
    exact absurd hr (List.not_mem_nil r)
  | cons a l ih =>
    intro res h r hr
    rw [List.mapM_cons] at h
    rcases hfa : f a with _ | b
    · rw [hfa] at h; simp at h
    · rw [hfa] at h
      rcases hml : l.mapM f with _ | bs
      · rw [hml] at h; simp at h
      · rw [hml] at h
        simp only [Option.pure_def, Option.bind_eq_bind, Option.some_bind,
          Option.some.injEq] at h
        subst h
        rcases List.mem_cons.mp hr with rfl | hr
        · exact ⟨a, List.mem_cons_self a l, hfa⟩
        · rcases ih bs hml r hr with ⟨a', ha', hfa'⟩
          exact ⟨a', List.mem_cons_of_mem a ha', hfa'⟩

theorem mapM_none_of_bad {α β : Type _} (f : α → Option β) (l : List α)
    (a : α) (ha : a ∈ l) (hfa : f a = none) : l.mapM f = none := by
  induction l with
  | nil => exact absurd ha (List.not_mem_nil a)
  | cons b l ih =>
    rw [List.mapM_cons]
    rcases List.mem_cons.mp ha with rfl | ha
    · rw [hfa]; rfl
    · rcases hfb : f b with _ | v
      · rfl
      · rw [ih ha]; rfl

theorem makeBoxArrayStep_mem {geom : Geometry} {grid_ba : List Box} {ncell : ℤ}
    {dpid : Bool} {plo phi : Fin 3 → Bool} {domain grid_bx : Box} {l : List Box}
    (h : makeBoxArrayStep geom grid_ba ncell dpid plo phi domain grid_bx = some l)
    {c : Box} (hc : c ∈ l) :
    ∀ x : IntVect, x ∈ c → x ∈ domain ∧ ∀ g ∈ grid_ba, ¬ x ∈ g := by
  unfold makeBoxArrayStep at h
  split_ifs at h with hbad
  try dsimp only at h
  have hl := Option.some.inj h
  subst hl
  rw [mem_foldr_append] at hc
  rcases hc with ⟨b, hb, hcb⟩
  rcases List.mem_filterMap.mp hcb with ⟨bb, _, hbb2⟩
  try dsimp only at hbb2
  have hceq : b.inter bb = c := by
    split_ifs at hbb2 with hok
    exact Option.some.inj hbb2
  subst hceq
  intro x hx
  have hxb : x ∈ b := (Box.mem_inter.mp hx).1
  have hprops := complementIn_piece grid_ba ((grid_bx.grow ncell).inter domain) b hb x hxb
  exact ⟨(Box.mem_inter.mp hprops.1).2, hprops.2⟩

/-- C1: whenever `MakeBoxArray` succeeds, the returned layer block set is
pairwise disjoint, every output block lies inside the domain grown by `ncell`
on each enabled non-periodic side, and no output block shares a cell with any
interior grid block. -/
theorem MakeBoxArray_geometry (geom : Geometry) (grid_ba : List Box) (ncell : ℤ)
    (dpid : Bool) (plo phi : Fin 3 → Bool) (out : List Box)
    (h : MakeBoxArray geom grid_ba ncell dpid plo phi = some out) :
    out.Pairwise BoxDisj ∧
    (∀ c ∈ out, ∀ x : IntVect, x ∈ c → x ∈ grownDomain geom ncell plo phi) ∧
    (∀ c ∈ out, ∀ g ∈ grid_ba, ∀ x : IntVect, ¬(x ∈ c ∧ x ∈ g)) := by
  unfold MakeBoxArray at h
  rcases Option.map_eq_some'.mp h with ⟨ls, hls, rfl⟩
  have hpre : ∀ c ∈ ls.flatten, ∀ x : IntVect, x ∈ c →
      x ∈ grownDomain geom ncell plo phi ∧ ∀ g ∈ grid_ba, ¬ x ∈ g := by
    intro c hc x hx
    rcases List.mem_flatten.mp hc with ⟨l, hl, hcl⟩
    rcases mapM_some_mem _ _ ls hls l hl with ⟨gbx, _, hstep⟩
    exact makeBoxArrayStep_mem hstep hcl x hx
  rcases removeOverlap_props ls.flatten with ⟨hpw, horig⟩
  refine ⟨hpw, ?_, ?_⟩
  · intro c hc x hx
    rcases horig c hc with ⟨c₀, hc₀, hsub⟩
    exact (hpre c₀ hc₀ x (hsub x hx)).1
  · intro c hc g hg x hx
    rcases horig c hc with ⟨c₀, hc₀, hsub⟩
    exact (hpre c₀ hc₀ x (hsub x hx.1)).2 g hg hx.2

/-- Witness for the geometry theorem: a concrete one-block domain with all
sides enabled and non-periodic. -/
theorem MakeBoxArray_geometry_witness :
    (((MakeBoxArray ⟨⟨iv 0 0 0, iv 3 3 3⟩, fun _ => false⟩ [⟨iv 0 0 0, iv 3 3 3⟩]
        1 false (fun _ => true) (fun _ => true)).getD []).Pairwise BoxDisj) ∧
    (∀ c ∈ (MakeBoxArray ⟨⟨iv 0 0 0, iv 3 3 3⟩, fun _ => false⟩ [⟨iv 0 0 0, iv 3 3 3⟩]
        1 false (fun _ => true) (fun _ => true)).getD [],
      ∀ x : IntVect, x ∈ c →
        x ∈ grownDomain ⟨⟨iv 0 0 0, iv 3 3 3⟩, fun _ => false⟩ 1
          (fun _ => true) (fun _ => true)) ∧
    (∀ c ∈ (MakeBoxArray ⟨⟨iv 0 0 0, iv 3 3 3⟩, fun _ => false⟩ [⟨iv 0 0 0, iv 3 3 3⟩]
        1 false (fun _ => true) (fun _ => true)).getD [],
      ∀ g ∈ [(⟨iv 0 0 0, iv 3 3 3⟩ : Box)], ∀ x : IntVect, ¬(x ∈ c ∧ x ∈ g)) :=
  MakeBoxArray_geometry ⟨⟨iv 0 0 0, iv 3 3 3⟩, fun _ => false⟩ [⟨iv 0 0 0, iv 3 3 3⟩]
    1 false (fun _ => true) (fun _ => true) _ (by decide)

/-- C8: with layer-in-domain mode disabled, any interior block whose length
along a non-periodic axis with an enabled low or high layer boundary is at
most `ncell` makes `MakeBoxArray` abort with the fatal blocking-factor error
(modelled as `none`) instead of returning a block set. -/
theorem MakeBoxArray_blocking_abort (geom : Geometry) (grid_ba : List Box)
    (ncell : ℤ) (plo phi : Fin 3 → Bool) (g : Box) (hg : g ∈ grid_ba)
    (d : Fin 3) (hp : geom.isPeriodic d = false) (hf : plo d = true ∨ phi d = true)
    (hlen : g.length d ≤ ncell) :
    MakeBoxArray geom grid_ba ncell false plo phi = none := by
  have hnone : grid_ba.mapM (makeBoxArrayStep geom grid_ba ncell false plo phi
      (grownDomain geom ncell plo phi)) = none := by
    apply mapM_none_of_bad _ _ g hg
    unfold makeBoxArrayStep
    rw [if_pos ⟨rfl, d, hp, hf, hlen⟩]
  unfold MakeBoxArray
  dsimp only
  rw [hnone]
  rfl

/-- Witness for the blocking-factor abort at a concrete input: a block of
length 4 with `ncell = 4`. -/
theorem MakeBoxArray_blocking_abort_witness :
    MakeBoxArray ⟨⟨iv 0 0 0, iv 3 3 3⟩, fun _ => false⟩ [⟨iv 0 0 0, iv 3 3 3⟩]
      4 false (fun _ => true) (fun _ => true) = none :=
  MakeBoxArray_blocking_abort ⟨⟨iv 0 0 0, iv 3 3 3⟩, fun _ => false⟩
    [⟨iv 0 0 0, iv 3 3 3⟩] 4 (fun _ => true) (fun _ => true) ⟨iv 0 0 0, iv 3 3 3⟩
    (List.mem_singleton.mpr rfl) 0 rfl (Or.inl rfl) (by decide)

/-- C9: when layer geometry construction yields zero blocks, the constructor
returns successfully in the disabled state (`m_ok` false, no field group
allocated), and the B-field exchange on a patch whose field group was never
allocated returns both the layer state and the interior fields unchanged. -/
theorem PML_empty_disabled (geom : Geometry) (grid_ba : List Box) (ncell : ℤ)
    (plo phi : Fin 3 → Bool) (allocB : List Box → Fin 3 → MultiFab)
    (h : MakeBoxArray geom grid_ba ncell false plo phi = some []) :
    PML.init geom grid_ba ncell false plo phi allocB
      = some ⟨false, none, none⟩ ∧
    (∀ (st : PMLState) (Bp : Option (Fin 3 → MultiFab))
        (per cper : List IntVect) (dpid : Bool), st.pml_B_fp = none →
      PML.ExchangeB PatchType.fine st Bp per cper dpid = (st, Bp)) ∧
    (∀ (st : PMLState) (Bp : Option (Fin 3 → MultiFab))
        (per cper : List IntVect) (dpid : Bool), st.pml_B_cp = none →
      PML.ExchangeB PatchType.coarse st Bp per cper dpid = (st, Bp)) := by
  refine ⟨?_, ?_, ?_⟩
  · unfold PML.init
    simp only [Bool.false_eq_true, if_false, if_true, h]
  · intro st Bp per cper dpid hnone
    unfold PML.ExchangeB
    rw [hnone]
  · intro st Bp per cper dpid hnone
    unfold PML.ExchangeB
    rw [hnone]

/-- Witness for the disabled-state theorem: a fully periodic domain, whose
layer box set is empty. -/
theorem PML_empty_disabled_witness :
    PML.init ⟨⟨iv 0 0 0, iv 3 3 3⟩, fun _ => true⟩ [⟨iv 0 0 0, iv 3 3 3⟩]
      1 false (fun _ => true) (fun _ => true) (fun _ _ => mkMultiFab [] 2 (iv 2 2 2))
      = some ⟨false, none, none⟩ :=
  (PML_empty_disabled ⟨⟨iv 0 0 0, iv 3 3 3⟩, fun _ => true⟩ [⟨iv 0 0 0, iv 3 3 3⟩]
    1 (fun _ => true) (fun _ => true) (fun _ _ => mkMultiFab [] 2 (iv 2 2 2))
    (by decide)).1

/-! ### Exchange engine lemmas -/

theorem getD_zipWith_fab (f : Fab → Fab → Fab) :
    ∀ (l1 l2 : List Fab) (i : ℕ), i < l1.length → i < l2.length →
    (List.zipWith f l1 l2).getD i default = f (l1.getD i default) (l2.getD i default) := by
  intro l1
  induction l1 with
  | nil => intro l2 i h1 _; exact absurd h1 (by simp)
  | cons a l1 ih =>
    intro l2 i h1 h2
    cases l2 with
    | nil => exact absurd h2 (by simp)
    | cons b l2 =>
      cases i with
      | zero => rfl
      | succ n => exact ih l2 n (by simpa using h1) (by simpa using h2)

theorem Copy_length (dst src : MultiFab) (scomp dcomp nc : ℕ) (ng : IntVect) :
    (MultiFab.Copy dst src scomp dcomp nc ng).fabs.length
      = min dst.fabs.length src.fabs.length := by
  simp [MultiFab.Copy]

theorem Copy_getD (dst src : MultiFab) (scomp dcomp nc : ℕ) (ng : IntVect) (j : ℕ)
    (h1 : j < dst.fabs.length) (h2 : j < src.fabs.length) :
    (MultiFab.Copy dst src scomp dcomp nc ng).fabs.getD j default
      = { (dst.fabs.getD j default) with data := fun x c =>
          if dcomp ≤ c ∧ c < dcomp + nc ∧ x ∈ (dst.fabs.getD j default).box.growVec ng then
            (src.fabs.getD j default).data x (scomp + (c - dcomp))
          else (dst.fabs.getD j default).data x c } :=
  getD_zipWith_fab _ dst.fabs src.fabs j h1 h2

theorem setVal_length (mf : MultiFab) (v : ℚ) (comp nc : ℕ) (ng : IntVect) :
    (MultiFab.setVal mf v comp nc ng).fabs.length = mf.fabs.length := by
  simp [MultiFab.setVal]

theorem setVal_getD (mf : MultiFab) (v : ℚ) (comp nc : ℕ) (ng : IntVect) (j : ℕ)
    (h : j < mf.fabs.length) :
    (MultiFab.setVal mf v comp nc ng).fabs.getD j default
      = { (mf.fabs.getD j default) with data := fun x c =>
          if comp ≤ c ∧ c < comp + nc ∧ x ∈ (mf.fabs.getD j default).box.growVec ng then v
          else (mf.fabs.getD j default).data x c } :=
  getD_map_of_lt _ mf.fabs j h default default

theorem ParallelCopy_length (dst src : MultiFab) (scomp dcomp nc : ℕ)
    (sng dng : IntVect) (period : List IntVect) :
    (MultiFab.ParallelCopy dst src scomp dcomp nc sng dng period).fabs.length
      = dst.fabs.length := by
  simp [MultiFab.ParallelCopy]

theorem ParallelCopy_getD (dst src : MultiFab) (scomp dcomp nc : ℕ)
    (sng dng : IntVect) (period : List IntVect) (j : ℕ) (h : j < dst.fabs.length) :
    (MultiFab.ParallelCopy dst src scomp dcomp nc sng dng period).fabs.getD j default
      = { (dst.fabs.getD j default) with data := fun x c =>
          if dcomp ≤ c ∧ c < dcomp + nc ∧ x ∈ (dst.fabs.getD j default).box.growVec dng then
            (match pcLookup src.fabs sng period x with
             | some (i, s) => (src.fabs.getD i default).data (x + s) (scomp + (c - dcomp))
             | none => (dst.fabs.getD j default).data x c)
          else (dst.fabs.getD j default).data x c } :=
  getD_map_of_lt _ dst.fabs j h default default

theorem ghostLoop_length (reg tmp : MultiFab) :
    (ghostLoop reg tmp).fabs.length = min reg.fabs.length tmp.fabs.length := by
  simp [ghostLoop]

theorem ghostLoop_getD (reg tmp : MultiFab) (j : ℕ)
    (h1 : j < reg.fabs.length) (h2 : j < tmp.fabs.length) :
    (ghostLoop reg tmp).fabs.getD j default
      = { (reg.fabs.getD j default) with data := fun x c =>
          if (c = 0 ∧ memList (boxDiff ((reg.fabs.getD j default).box.growVec reg.ngrow) (reg.fabs.getD j default).box) x) then
            (tmp.fabs.getD j default).data x 0
          else (reg.fabs.getD j default).data x c } :=
  getD_zipWith_fab _ reg.fabs tmp.fabs j h1 h2

theorem LinComb_length (dst : MultiFab) (a : ℚ) (src : MultiFab) (xcomp : ℕ) (b : ℚ)
    (ycomp dcomp nc : ℕ) (ng : IntVect) :
    (MultiFab.LinComb dst a src xcomp b ycomp dcomp nc ng).fabs.length
      = min dst.fabs.length src.fabs.length := by
  simp [MultiFab.LinComb]

theorem AddFrom_length (dst src : MultiFab) (scomp dcomp nc : ℕ) (ng : IntVect) :
    (MultiFab.AddFrom dst src scomp dcomp nc ng).fabs.length
      = min dst.fabs.length src.fabs.length := by
  simp [MultiFab.AddFrom]

theorem mkMultiFab_length (boxes : List Box) (nc : ℕ) (ng : IntVect) :
    (mkMultiFab boxes nc ng).fabs.length = boxes.length := by
  simp [mkMultiFab]

theorem mkMultiFab_getD_box (boxes : List Box) (nc : ℕ) (ng : IntVect) (j : ℕ)
    (h : j < boxes.length) :
    ((mkMultiFab boxes nc ng).fabs.getD j default).box = boxes.getD j default := by
  unfold mkMultiFab
  rw [getD_map_of_lt _ boxes j h default default]

/-- The ghost-region assignment loop leaves every fab box unchanged and
every valid cell's data (all components) unchanged. -/
theorem ghostLoop_valid_preserved (reg tmp : MultiFab)
    (hlen : reg.fabs.length ≤ tmp.fabs.length) (i : ℕ) :
    (((ghostLoop reg tmp).fabs.getD i default).box = (reg.fabs.getD i default).box) ∧
    ∀ x : IntVect, x ∈ (reg.fabs.getD i default).box → ∀ c : ℕ,
      ((ghostLoop reg tmp).fabs.getD i default).data x c
        = (reg.fabs.getD i default).data x c := by
  by_cases hi : i < reg.fabs.length
  · rw [ghostLoop_getD reg tmp i hi (lt_of_lt_of_le hi hlen)]
    refine ⟨rfl, ?_⟩
    intro x hx c
    dsimp only
    rw [if_neg]
    rintro ⟨_, hmem⟩
    exact ((boxDiff_union _ _ x).mp hmem).2 hx
  · have hge := le_of_not_lt hi
    have hge2 : min reg.fabs.length tmp.fabs.length ≤ i := le_trans (min_le_left _ _) hge
    rw [List.getD_eq_default _ _ (by rw [ghostLoop_length]; exact hge2),
      List.getD_eq_default _ _ hge]
    exact ⟨rfl, fun x _ c => rfl⟩

/-- Frame property of one `Exchange` with the layer outside the domain: the
interior fab boxes and every interior valid cell are unchanged. -/
theorem Exchange_false_reg_fab (pml reg : MultiFab) (period : List IntVect) (i : ℕ) :
    (((PML.Exchange pml reg period false).2.fabs.getD i default).box
      = (reg.fabs.getD i default).box) ∧
    ∀ x : IntVect, x ∈ (reg.fabs.getD i default).box → ∀ c : ℕ,
      ((PML.Exchange pml reg period false).2.fabs.getD i default).data x c
        = (reg.fabs.getD i default).data x c := by
  unfold PML.Exchange
  dsimp only
  simp only [Bool.false_eq_true, if_false]
  by_cases hng : 0 < reg.ngrow.maxComp
  · simp only [if_pos hng]
    have hlen : reg.fabs.length ≤ (PML.exchangeTmpGhost pml reg period).fabs.length := by
      unfold PML.exchangeTmpGhost
      rw [ParallelCopy_length, Copy_length, mkMultiFab_length, List.length_map, min_self]
    exact ghostLoop_valid_preserved reg _ hlen i
  · simp only [if_neg hng]
    exact ⟨trivial, fun x _ c => trivial⟩

/-- C5: with `layerInDomain` false, the layer-to-interior direction of
`Exchange` writes only the interior field's ghost cells: every valid interior
cell (including the outermost one) keeps its value, for every component; in
particular after two successive exchanges (an interior-to-layer then
layer-to-interior round trip) a valid cell that held the constant `K` still
holds `K`. -/
theorem Exchange_outside_domain_preserves_valid (pml pml2 reg : MultiFab)
    (period : List IntVect) (i : ℕ) (x : IntVect) (c : ℕ) (K : ℚ)
    (hx : x ∈ (reg.fabs.getD i default).box)
    (hK : (reg.fabs.getD i default).data x c = K) :
    ((PML.Exchange pml reg period false).2.fabs.getD i default).data x c = K ∧
    ((PML.Exchange pml2 (PML.Exchange pml reg period false).2 period false).2.fabs.getD
        i default).data x c = K := by
  have h1 := Exchange_false_reg_fab pml reg period i
  have hx1 : x ∈ ((PML.Exchange pml reg period false).2.fabs.getD i default).box := by
    rw [h1.1]; exact hx
  have h2 := Exchange_false_reg_fab pml2 ((PML.Exchange pml reg period false).2) period i
  exact ⟨(h1.2 x hx c).trans hK, ((h2.2 x hx1 c).trans (h1.2 x hx c)).trans hK⟩

/-- Witness for the exchange frame theorem at a concrete input. -/
theorem Exchange_outside_domain_preserves_valid_witness :
    ((PML.Exchange ⟨[], iv 0 0 0, 2⟩ ⟨[⟨⟨iv 0 0 0, iv 1 1 1⟩, fun _ _ => 5⟩], iv 1 1 1, 1⟩
        [iv 0 0 0] false).2.fabs.getD 0 default).data (iv 0 0 0) 0 = 5 :=
  (Exchange_outside_domain_preserves_valid ⟨[], iv 0 0 0, 2⟩ ⟨[], iv 0 0 0, 2⟩
    ⟨[⟨⟨iv 0 0 0, iv 1 1 1⟩, fun _ _ => 5⟩], iv 1 1 1, 1⟩ [iv 0 0 0] 0 (iv 0 0 0) 0 5
    (by decide) rfl).1

theorem IntVect.zero_apply (k : Fin 3) : (0 : IntVect) k = 0 := rfl

theorem mem_growVec_zero {b : Box} {x : IntVect} : x ∈ b.growVec 0 ↔ x ∈ b := by
  simp only [Box.growVec, Box.mem_def, IntVect.zero_apply, sub_zero, add_zero]

/-- `pcLookup` only inspects the source fab boxes. -/
theorem pcLookup_congr (l1 l2 : List Fab) (sng : IntVect) (period : List IntVect)
    (hlen : l1.length = l2.length)
    (hbox : ∀ j, (l1.getD j default).box = (l2.getD j default).box) (x : IntVect) :
    pcLookup l1 sng period x = pcLookup l2 sng period x := by
  unfold pcLookup
  rw [hlen]
  have hp : (fun p : ℕ × IntVect =>
      decide (x + p.2 ∈ (l1.getD p.1 default).box.growVec sng)) = (fun p =>
      decide (x + p.2 ∈ (l2.getD p.1 default).box.growVec sng)) := by
    funext p
    rw [hbox p.1]
  rw [hp]

/-- A successful `pcLookup` delivers a source fab index below the length whose
(grown) box contains the shifted cell. -/
theorem pcLookup_found {srcFabs : List Fab} {sng : IntVect} {period : List IntVect}
    {x : IntVect} {j : ℕ} {s : IntVect}
    (h : pcLookup srcFabs sng period x = some (j, s)) :
    j < srcFabs.length ∧ x + s ∈ (srcFabs.getD j default).box.growVec sng := by
  unfold pcLookup at h
  have hpred := List.find?_some h
  have hmem := List.mem_of_find?_eq_some h
  rw [mem_foldr_append] at hmem
  rcases hmem with ⟨i, hi, hmem2⟩
  rcases List.mem_map.mp hmem2 with ⟨s', _, hpair⟩
  have hj : j = i := by
    have := congrArg Prod.fst hpair
    simpa using this.symm
  subst hj
  exact ⟨List.mem_range.mp hi, of_decide_eq_true hpred⟩

/-- Value of the direction-2 temporary of `Exchange` at a source cell `y`
lying in the valid box of fab `j`: component 0 holds the (current) interior
value, the remaining split components hold zero — except that with the layer
in the domain, a cell covered by the layer's own valid data (through
`pcLookup`) holds the layer's values instead. -/
theorem dir2_tmp_spec (tmp1 reg1 pml t2 : MultiFab) (period : List IntVect) (b : Bool)
    (ht2 : t2 = if b then MultiFab.ParallelCopy (MultiFab.setVal
        (MultiFab.Copy tmp1 reg1 0 0 1 0) 0 1 (pml.nComp - 1) 0)
        pml 0 0 pml.nComp 0 0 period
      else MultiFab.setVal (MultiFab.Copy tmp1 reg1 0 0 1 0) 0 1 (pml.nComp - 1) 0)
    (j : ℕ) (hj1 : j < tmp1.fabs.length) (hj2 : j < reg1.fabs.length)
    (y : IntVect) (hy : y ∈ (tmp1.fabs.getD j default).box) (c : ℕ) (hc : c < pml.nComp) :
    ((b = true → ∀ p s', pcLookup pml.fabs 0 period y = some (p, s') →
        (t2.fabs.getD j default).data y c
          = (pml.fabs.getD p default).data (y + s') c) ∧
     ((b = false ∨ pcLookup pml.fabs 0 period y = none) →
        ((c = 0 → (t2.fabs.getD j default).data y c
            = (reg1.fabs.getD j default).data y 0) ∧
         (1 ≤ c → (t2.fabs.getD j default).data y c = 0)))) := by
  subst ht2
  have hjc : j < (MultiFab.Copy tmp1 reg1 0 0 1 0).fabs.length := by
    rw [Copy_length]
    omega
  have hjs : j < (MultiFab.setVal (MultiFab.Copy tmp1 reg1 0 0 1 0) 0 1
      (pml.nComp - 1) 0).fabs.length := by
    rw [setVal_length]
    exact hjc
  have hcopy := Copy_getD tmp1 reg1 0 0 1 0 j hj1 hj2
  have hsv := setVal_getD (MultiFab.Copy tmp1 reg1 0 0 1 0) 0 1 (pml.nComp - 1) 0 j hjc
  have hbox_c : ((MultiFab.Copy tmp1 reg1 0 0 1 0).fabs.getD j default).box
      = (tmp1.fabs.getD j default).box := by
    rw [hcopy]
  have hbox_s : ((MultiFab.setVal (MultiFab.Copy tmp1 reg1 0 0 1 0) 0 1
      (pml.nComp - 1) 0).fabs.getD j default).box = (tmp1.fabs.getD j default).box := by
    rw [hsv, hbox_c]
  -- value of the setVal stage
  have hsv_val0 : (((MultiFab.setVal (MultiFab.Copy tmp1 reg1 0 0 1 0) 0 1
      (pml.nComp - 1) 0).fabs.getD j default).data y 0)
      = (reg1.fabs.getD j default).data y 0 := by
    rw [hsv]
    dsimp only
    rw [if_neg (by omega)]
    rw [hcopy]
    dsimp only
    rw [if_pos ⟨Nat.le_refl 0, by omega, mem_growVec_zero.mpr hy⟩]
  have hsv_val1 : 1 ≤ c → (((MultiFab.setVal (MultiFab.Copy tmp1 reg1 0 0 1 0) 0 1
      (pml.nComp - 1) 0).fabs.getD j default).data y c) = 0 := by
    intro h1
    rw [hsv]
    dsimp only
    rw [if_pos ⟨h1, by omega, mem_growVec_zero.mpr (hbox_c ▸ hy)⟩]
  constructor
  · intro hb p s' hfind
    subst hb
    simp only [if_true]
    rw [ParallelCopy_getD _ pml 0 0 pml.nComp 0 0 period j hjs]
    dsimp only
    rw [if_pos ⟨Nat.zero_le c, by omega, mem_growVec_zero.mpr (hbox_s ▸ hy)⟩, hfind]
    simp
  · intro hnb
    have hkey : (((if b then MultiFab.ParallelCopy (MultiFab.setVal
        (MultiFab.Copy tmp1 reg1 0 0 1 0) 0 1 (pml.nComp - 1) 0)
        pml 0 0 pml.nComp 0 0 period
      else MultiFab.setVal (MultiFab.Copy tmp1 reg1 0 0 1 0) 0 1 (pml.nComp - 1) 0)
      ).fabs.getD j default).data y c
        = (((MultiFab.setVal (MultiFab.Copy tmp1 reg1 0 0 1 0) 0 1
          (pml.nComp - 1) 0)).fabs.getD j default).data y c := by
      cases b with
      | false => simp only [Bool.false_eq_true, if_false]
      | true =>
        rcases hnb with hb | hnone
        · exact absurd hb (by simp)
        · simp only [if_true]
          rw [ParallelCopy_getD _ pml 0 0 pml.nComp 0 0 period j hjs]
          dsimp only
          rw [if_pos ⟨Nat.zero_le c, by omega, mem_growVec_zero.mpr (hbox_s ▸ hy)⟩, hnone]
    rw [hkey]
    exact ⟨fun hc0 => by rw [hc0]; exact hsv_val0, hsv_val1⟩

/-- Value written by the final merge of `Exchange` at a receiving layer cell:
the temporary's value at the found source position. -/
theorem merge_value (pml t2 : MultiFab) (period : List IntVect) (i : ℕ)
    (x : IntVect) (c : ℕ) (hi : i < pml.fabs.length)
    (hx : x ∈ (pml.fabs.getD i default).box.growVec pml.ngrow) (hc : c < pml.nComp)
    {j : ℕ} {s : IntVect} (hL2 : pcLookup t2.fabs 0 period x = some (j, s)) :
    ((MultiFab.ParallelCopy pml t2 0 0 pml.nComp 0 pml.ngrow period).fabs.getD
        i default).data x c = (t2.fabs.getD j default).data (x + s) c := by
  rw [ParallelCopy_getD pml t2 0 0 pml.nComp 0 pml.ngrow period i hi]
  dsimp only
  rw [if_pos ⟨Nat.zero_le c, by omega, hx⟩, hL2]
  simp

/-- Assembled specification of the interior-to-layer direction, parameterized
by the direction-1 results `tmp1`/`reg1` (whose fab boxes agree with the
interior field's). -/
theorem exchange_merge_spec (pml reg tmp1 reg1 t2 : MultiFab) (period : List IntVect)
    (b : Bool)
    (ht2 : t2 = if b then MultiFab.ParallelCopy (MultiFab.setVal
        (MultiFab.Copy tmp1 reg1 0 0 1 0) 0 1 (pml.nComp - 1) 0)
        pml 0 0 pml.nComp 0 0 period
      else MultiFab.setVal (MultiFab.Copy tmp1 reg1 0 0 1 0) 0 1 (pml.nComp - 1) 0)
    (hT1len : tmp1.fabs.length = reg.fabs.length)
    (hT1box : ∀ j, (tmp1.fabs.getD j default).box = (reg.fabs.getD j default).box)
    (hR1len : reg.fabs.length ≤ reg1.fabs.length)
    (i j : ℕ) (x s : IntVect) (c : ℕ)
    (hi : i < pml.fabs.length)
    (hx : x ∈ (pml.fabs.getD i default).box.growVec pml.ngrow)
    (hc : c < pml.nComp)
    (hL : pcLookup reg.fabs 0 period x = some (j, s)) :
    (b = true → ∀ p s', pcLookup pml.fabs 0 period (x + s) = some (p, s') →
      ((MultiFab.ParallelCopy pml t2
          0 0 pml.nComp 0 pml.ngrow period).fabs.getD i default).data x c
        = (pml.fabs.getD p default).data ((x + s) + s') c) ∧
    ((b = false ∨ pcLookup pml.fabs 0 period (x + s) = none) →
      ((c = 0 → ((MultiFab.ParallelCopy pml t2
          0 0 pml.nComp 0 pml.ngrow period).fabs.getD i default).data x c
          = (reg1.fabs.getD j default).data (x + s) 0) ∧
       (1 ≤ c → ((MultiFab.ParallelCopy pml t2
          0 0 pml.nComp 0 pml.ngrow period).fabs.getD i default).data x c = 0))) := by
  subst ht2
  obtain ⟨hjlen, hymem⟩ := pcLookup_found hL
  have hy : x + s ∈ (tmp1.fabs.getD j default).box := by
    rw [hT1box j]
    exact mem_growVec_zero.mp hymem
  have hj1 : j < tmp1.fabs.length := by omega
  have hj2 : j < reg1.fabs.length := lt_of_lt_of_le hjlen hR1len
  have ht2len : (if b then MultiFab.ParallelCopy (MultiFab.setVal
      (MultiFab.Copy tmp1 reg1 0 0 1 0) 0 1 (pml.nComp - 1) 0)
      pml 0 0 pml.nComp 0 0 period
    else MultiFab.setVal (MultiFab.Copy tmp1 reg1 0 0 1 0) 0 1
      (pml.nComp - 1) 0).fabs.length = reg.fabs.length := by
    cases b <;>
      simp only [if_true, if_false, Bool.false_eq_true, ParallelCopy_length,
        setVal_length, Copy_length] <;> omega
  have ht2box : ∀ j', ((if b then MultiFab.ParallelCopy (MultiFab.setVal
      (MultiFab.Copy tmp1 reg1 0 0 1 0) 0 1 (pml.nComp - 1) 0)
      pml 0 0 pml.nComp 0 0 period
    else MultiFab.setVal (MultiFab.Copy tmp1 reg1 0 0 1 0) 0 1
      (pml.nComp - 1) 0).fabs.getD j' default).box
      = (reg.fabs.getD j' default).box := by
    intro j'
    by_cases hj' : j' < reg.fabs.length
    · have hjc : j' < (MultiFab.Copy tmp1 reg1 0 0 1 0).fabs.length := by
        rw [Copy_length]; omega
      have hjs : j' < (MultiFab.setVal (MultiFab.Copy tmp1 reg1 0 0 1 0) 0 1
          (pml.nComp - 1) 0).fabs.length := by rw [setVal_length]; exact hjc
      have hbase : ((MultiFab.setVal (MultiFab.Copy tmp1 reg1 0 0 1 0) 0 1
          (pml.nComp - 1) 0).fabs.getD j' default).box
          = (reg.fabs.getD j' default).box := by
        rw [setVal_getD _ _ _ _ _ j' hjc,
          Copy_getD tmp1 reg1 0 0 1 0 j' (by omega) (lt_of_lt_of_le hj' hR1len)]
        exact hT1box j'
      cases b with
      | false => simpa only [Bool.false_eq_true, if_false] using hbase
      | true =>
        simp only [if_true]
        rw [ParallelCopy_getD _ pml 0 0 pml.nComp 0 0 period j' hjs]
        exact hbase
    · have hge : reg.fabs.length ≤ j' := le_of_not_lt hj'
      rw [List.getD_eq_default _ _ (by rw [ht2len]; exact hge),
        List.getD_eq_default _ _ hge]
  have hL2 : pcLookup (if b then MultiFab.ParallelCopy (MultiFab.setVal
      (MultiFab.Copy tmp1 reg1 0 0 1 0) 0 1 (pml.nComp - 1) 0)
      pml 0 0 pml.nComp 0 0 period
    else MultiFab.setVal (MultiFab.Copy tmp1 reg1 0 0 1 0) 0 1
      (pml.nComp - 1) 0).fabs 0 period x = some (j, s) := by
    rw [pcLookup_congr _ reg.fabs 0 period ht2len ht2box x]
    exact hL
  have hmv := merge_value pml _ period i x c hi hx hc hL2
  have hspec := dir2_tmp_spec tmp1 reg1 pml _ period b rfl j hj1 hj2 (x + s) hy c hc
  constructor
  · intro hb p s' hfind
    rw [hmv]
    exact hspec.1 hb p s' hfind
  · intro hnb
    exact ⟨fun hc0 => by rw [hmv]; exact (hspec.2 hnb).1 hc0,
      fun h1 => by rw [hmv]; exact (hspec.2 hnb).2 h1⟩

theorem tmp0_len (reg : MultiFab) (nc : ℕ) (ng : IntVect) :
    (mkMultiFab (reg.fabs.map (·.box)) nc ng).fabs.length = reg.fabs.length := by
  rw [mkMultiFab_length, List.length_map]

theorem tmp0_box (reg : MultiFab) (nc : ℕ) (ng : IntVect) (j : ℕ) :
    ((mkMultiFab (reg.fabs.map (·.box)) nc ng).fabs.getD j default).box
      = (reg.fabs.getD j default).box := by
  by_cases hj : j < reg.fabs.length
  · rw [mkMultiFab_getD_box _ _ _ j (by rw [List.length_map]; exact hj),
      getD_map_of_lt _ reg.fabs j hj default default]
  · rw [List.getD_eq_default _ _ (by rw [tmp0_len]; omega),
      List.getD_eq_default _ _ (by omega)]

theorem exchangeTmpGhost_len (pml reg : MultiFab) (period : List IntVect) :
    (PML.exchangeTmpGhost pml reg period).fabs.length = reg.fabs.length := by
  unfold PML.exchangeTmpGhost
  rw [ParallelCopy_length, Copy_length, tmp0_len, min_self]

theorem exchangeTmpGhost_box (pml reg : MultiFab) (period : List IntVect) (j : ℕ) :
    ((PML.exchangeTmpGhost pml reg period).fabs.getD j default).box
      = (reg.fabs.getD j default).box := by
  by_cases hj : j < reg.fabs.length
  · unfold PML.exchangeTmpGhost
    rw [ParallelCopy_getD _ _ 0 0 1 0 reg.ngrow period j
        (by rw [Copy_length, tmp0_len, min_self]; exact hj),
      Copy_getD _ reg 0 0 1 reg.ngrow j (by rw [tmp0_len]; exact hj) hj]
    exact tmp0_box reg pml.nComp reg.ngrow j
  · rw [List.getD_eq_default _ _ (by rw [exchangeTmpGhost_len]; omega),
      List.getD_eq_default _ _ (by omega)]

/-- C6: a layer cell that receives interior data in the interior-to-layer
direction of `Exchange` (there is a shifted interior source cell `y = x + s`
found by the copy) gets the interior field's value in the first split
sub-component and zero in every remaining split sub-component; when
`layerInDomain` is true and the source position is itself covered by the
layer's valid data, the layer's own values are written back instead, so the
merge does not overwrite previously computed layer-interior split values. -/
theorem Exchange_interior_to_layer (pml reg : MultiFab) (period : List IntVect)
    (b : Bool) (i j : ℕ) (x s : IntVect) (c : ℕ)
    (hi : i < pml.fabs.length)
    (hx : x ∈ (pml.fabs.getD i default).box.growVec pml.ngrow)
    (hc : c < pml.nComp)
    (hL : pcLookup reg.fabs 0 period x = some (j, s)) :
    (b = true → ∀ (p : ℕ) (s' : IntVect),
      pcLookup pml.fabs 0 period (x + s) = some (p, s') →
      ((PML.Exchange pml reg period b).1.fabs.getD i default).data x c
        = (pml.fabs.getD p default).data ((x + s) + s') c) ∧
    ((b = false ∨ pcLookup pml.fabs 0 period (x + s) = none) →
      ((c = 0 → ((PML.Exchange pml reg period b).1.fabs.getD i default).data x c
          = ((PML.Exchange pml reg period b).2.fabs.getD j default).data (x + s) 0) ∧
       (1 ≤ c → ((PML.Exchange pml reg period b).1.fabs.getD i default).data x c
          = 0))) := by
  cases b with
  | true =>
    have hEx : PML.Exchange pml reg period true
        = (MultiFab.ParallelCopy pml
            (MultiFab.ParallelCopy (MultiFab.setVal (MultiFab.Copy
              (mkMultiFab (reg.fabs.map (·.box)) pml.nComp reg.ngrow)
              (MultiFab.ParallelCopy reg (PML.totpml pml) 0 0 1 0 0 period) 0 0 1 0)
              0 1 (pml.nComp - 1) 0) pml 0 0 pml.nComp 0 0 period)
            0 0 pml.nComp 0 pml.ngrow period,
           MultiFab.ParallelCopy reg (PML.totpml pml) 0 0 1 0 0 period) := by
      unfold PML.Exchange
      simp only [eq_self_iff_true, if_true]
    rw [hEx]
    exact exchange_merge_spec pml reg
      (mkMultiFab (reg.fabs.map (·.box)) pml.nComp reg.ngrow)
      (MultiFab.ParallelCopy reg (PML.totpml pml) 0 0 1 0 0 period)
      (MultiFab.ParallelCopy (MultiFab.setVal (MultiFab.Copy
        (mkMultiFab (reg.fabs.map (·.box)) pml.nComp reg.ngrow)
        (MultiFab.ParallelCopy reg (PML.totpml pml) 0 0 1 0 0 period) 0 0 1 0)
        0 1 (pml.nComp - 1) 0) pml 0 0 pml.nComp 0 0 period)
      period true rfl
      (tmp0_len reg pml.nComp reg.ngrow) (tmp0_box reg pml.nComp reg.ngrow)
      (le_of_eq (ParallelCopy_length reg (PML.totpml pml) 0 0 1 0 0 period).symm)
      i j x s c hi hx hc hL
  | false =>
    by_cases hng : 0 < reg.ngrow.maxComp
    · have hEx : PML.Exchange pml reg period false
          = (MultiFab.ParallelCopy pml
              (MultiFab.setVal (MultiFab.Copy (PML.exchangeTmpGhost pml reg period)
                (ghostLoop reg (PML.exchangeTmpGhost pml reg period)) 0 0 1 0)
                0 1 (pml.nComp - 1) 0)
              0 0 pml.nComp 0 pml.ngrow period,
             ghostLoop reg (PML.exchangeTmpGhost pml reg period)) := by
        unfold PML.Exchange
        simp only [Bool.false_eq_true, if_false, if_pos hng]
      rw [hEx]
      have hgl : reg.fabs.length ≤
          (ghostLoop reg (PML.exchangeTmpGhost pml reg period)).fabs.length := by
        rw [ghostLoop_length, exchangeTmpGhost_len, min_self]
      exact exchange_merge_spec pml reg (PML.exchangeTmpGhost pml reg period)
        (ghostLoop reg (PML.exchangeTmpGhost pml reg period))
        (MultiFab.setVal (MultiFab.Copy (PML.exchangeTmpGhost pml reg period)
          (ghostLoop reg (PML.exchangeTmpGhost pml reg period)) 0 0 1 0)
          0 1 (pml.nComp - 1) 0)
        period false rfl
        (exchangeTmpGhost_len pml reg period) (exchangeTmpGhost_box pml reg period)
        hgl i j x s c hi hx hc hL
    · have hEx : PML.Exchange pml reg period false
          = (MultiFab.ParallelCopy pml
              (MultiFab.setVal (MultiFab.Copy
                (mkMultiFab (reg.fabs.map (·.box)) pml.nComp reg.ngrow)
                reg 0 0 1 0) 0 1 (pml.nComp - 1) 0)
              0 0 pml.nComp 0 pml.ngrow period, reg) := by
        unfold PML.Exchange
        simp only [Bool.false_eq_true, if_false, if_neg hng]
      rw [hEx]
      exact exchange_merge_spec pml reg
        (mkMultiFab (reg.fabs.map (·.box)) pml.nComp reg.ngrow) reg
        (MultiFab.setVal (MultiFab.Copy
          (mkMultiFab (reg.fabs.map (·.box)) pml.nComp reg.ngrow) reg 0 0 1 0)
          0 1 (pml.nComp - 1) 0)
        period false rfl
        (tmp0_len reg pml.nComp reg.ngrow) (tmp0_box reg pml.nComp reg.ngrow)
        (le_refl _) i j x s c hi hx hc hL

/-- Witness for the interior-to-layer theorem at a concrete input. -/
theorem Exchange_interior_to_layer_witness :
    ((PML.Exchange ⟨[⟨⟨iv 5 0 0, iv 6 0 0⟩, fun _ _ => 3⟩], iv 1 1 1, 2⟩
        ⟨[⟨⟨iv 0 0 0, iv 4 0 0⟩, fun _ _ => 7⟩], iv 2 2 2, 1⟩ [iv 0 0 0]
        false).1.fabs.getD 0 default).data (iv 4 0 0) 0
      = ((PML.Exchange ⟨[⟨⟨iv 5 0 0, iv 6 0 0⟩, fun _ _ => 3⟩], iv 1 1 1, 2⟩
        ⟨[⟨⟨iv 0 0 0, iv 4 0 0⟩, fun _ _ => 7⟩], iv 2 2 2, 1⟩ [iv 0 0 0]
        false).2.fabs.getD 0 default).data (iv 4 0 0 + iv 0 0 0) 0 :=
  ((Exchange_interior_to_layer ⟨[⟨⟨iv 5 0 0, iv 6 0 0⟩, fun _ _ => 3⟩], iv 1 1 1, 2⟩
    ⟨[⟨⟨iv 0 0 0, iv 4 0 0⟩, fun _ _ => 7⟩], iv 2 2 2, 1⟩ [iv 0 0 0] false 0 0
    (iv 4 0 0) (iv 0 0 0) 0 (by decide) (by decide) (by decide)
    (by decide)).2 (Or.inl rfl)).1 rfl

end WarpXPML
